import Mathlib

/-!
Verification development for the Redis-backed metadata engine (pkg/meta/redis.go).

Each Go function relevant to the checked properties is shallowly embedded as a
computable Lean definition: machine integers become Nat (with explicit modular
arithmetic where a wraparound can actually occur in the source), Redis state
becomes explicit association lists, transactions become pure functions from the
pre-state (the values the WATCHed keys held for the whole transaction) to the
post-state, and fallible calls return an error-summary value.
-/

namespace JuiceFS

/-! POSIX error numbers surfaced by the engine (Linux numbering). -/

def EPERM : Nat := 1
def ENOENT : Nat := 2
def EIO : Nat := 5
def EAGAIN : Nat := 11
def EACCES : Nat := 13
def EEXIST : Nat := 17
def ENOTDIR : Nat := 20
def EINVAL : Nat := 22
def EPIPE : Nat := 32
def ENOTEMPTY : Nat := 39
def ENOATTR : Nat := 61
def ENOTSUP : Nat := 95

/-- Summary of a Go error value as the metadata engine inspects it:
nil, a syscall.Errno, the redis.Nil sentinel of a missing key, the
redis.TxFailedErr sentinel of an optimistic-transaction conflict, or any
other (transport or server) error. -/
inductive GoErr where
| ok
| errnoE (e : Nat)
| redisNil
| txFailed
| other
deriving DecidableEq, Repr

/-- Embedding of func errno (redis.go): nil maps to 0, a syscall.Errno passes
through, redis.Nil maps to ENOENT, and every other error maps to EIO. -/
def errno : GoErr → Nat
| GoErr.ok => 0
| GoErr.errnoE e => e
| GoErr.redisNil => ENOENT
| GoErr.txFailed => EIO
| GoErr.other => EIO

/-- Embedding of the retry loop of redisMeta.txn (redis.go), unrolled from
attempt index i. The argument attempts gives the outcome of rdb.Watch for
each attempt, rand the value rand.Int() drawn before the corresponding sleep.
Result: the returned POSIX errno, the number of attempts executed from index
i on, and the list of microsecond sleep durations performed (the source sleeps
time.Microsecond * 100 * (rand.Int() % (i+1)) after a conflicting attempt i). -/
def txnFrom (attempts : Nat → GoErr) (rand : Nat → Nat) (i : Nat) : Nat × Nat × List Nat :=
  if h : i < 50 then
    if attempts i = GoErr.txFailed then
      let rest := txnFrom attempts rand (i + 1)
      (rest.1, rest.2.1 + 1, 100 * (rand i % (i + 1)) :: rest.2.2)
    else (errno (attempts i), 1, [])
  else (errno GoErr.txFailed, 0, [])
termination_by 50 - i

/-- Embedding of redisMeta.txn: run the retry loop from attempt 0. -/
def txnM (attempts : Nat → GoErr) (rand : Nat → Nat) : Nat × Nat × List Nat :=
  txnFrom attempts rand 0

/-! Inode attributes. The Go Attr struct of the meta package, with Go integer
fields embedded as Nat (timestamps as Int seconds plus Nat nanoseconds). -/

structure Attr where
  flags : Nat
  typ : Nat
  mode : Nat
  uid : Nat
  gid : Nat
  atime : Int
  atimensec : Nat
  mtime : Int
  mtimensec : Nat
  ctime : Int
  ctimensec : Nat
  nlink : Nat
  length : Nat
  rdev : Nat
  parent : Nat
  full : Bool
deriving DecidableEq, Repr

/-- An all-zero attribute record, the zero value of the Go struct. -/
def attr0 : Attr := ⟨0, 0, 0, 0, 0, 0, 0, 0, 0, 0, 0, 0, 0, 0, 0, false⟩

/-- Modelled from the spec: the inode kind tags (regular file, directory,
symlink, fifo) declared in the meta package outside src/. Only their
distinctness matters to the embedded code. -/
def TypeFile : Nat := 1
def TypeDirectory : Nat := 2
def TypeSymlink : Nat := 3
def TypeFIFO : Nat := 4

/-- Deadline attached to the context of the attribute read in
redisMeta.GetAttr: 300 milliseconds for the root inode, none otherwise. -/
def getAttrDeadlineMs (inode : Nat) : Option Nat :=
  if inode = 1 then some 300 else none

/-- Embedding of redisMeta.GetAttr (redis.go). The single GET on the inode key
is summarised by readErr (its error value, GoErr.ok on success) and stored
(the decoded attribute it returned on success); attrIn is the content of the
caller-provided attribute before the call. Returns the errno handed to the
caller and the final content of the caller's attribute. -/
def GetAttrM (inode : Nat) (readErr : GoErr) (stored attrIn : Attr) : Nat × Attr :=
  let afterRead : GoErr × Attr :=
    if readErr = GoErr.ok then (GoErr.ok, stored) else (readErr, attrIn)
  if afterRead.1 ≠ GoErr.ok ∧ inode = 1 then
    (errno GoErr.ok,
      { afterRead.2 with typ := TypeDirectory, mode := 0o777, nlink := 2, length := 4096 })
  else (errno afterRead.1, afterRead.2)

/-- Embedding of redisMeta.Open (redis.go). attrRequested says whether the
caller passed a non-nil attribute pointer (in which case GetAttr runs, its
read summarised by readErr and stored as in GetAttrM); openCount is the
current in-memory open-file counter of the inode. Returns the errno handed to
the caller and the new value of the counter. -/
def OpenM (inode : Nat) (attrRequested : Bool) (readErr : GoErr) (stored attrIn : Attr)
    (openCount : Nat) : Nat × Nat :=
  let err := if attrRequested then (GetAttrM inode readErr stored attrIn).1 else 0
  let cnt := if err = 0 then openCount + 1 else openCount
  (0, cnt)

/-! Association-list embedding of the key-value store: Redis hashes and the
string keyspace both become lists of bindings with a decidable key type. -/

/-- Lookup of a key: the first binding, none when absent (redis.Nil). -/
def aget {α β : Type} [DecidableEq α] : List (α × β) → α → Option β
| [], _ => none
| (k, v) :: rest, key => if k = key then some v else aget rest key

/-- SET or HSET of a key: replace the binding, or append a new one. -/
def aset {α β : Type} [DecidableEq α] : List (α × β) → α → β → List (α × β)
| [], key, v => [(key, v)]
| (k, w) :: rest, key, v =>
  if k = key then (key, v) :: rest else (k, w) :: aset rest key v

/-- DEL or HDEL of a key: drop every binding of the key. -/
def adel {α β : Type} [DecidableEq α] : List (α × β) → α → List (α × β)
| [], _ => []
| (k, w) :: rest, key =>
  if k = key then adel rest key else (k, w) :: adel rest key

/-! Extended attributes. The Redis hash at key x-inode is embedded as an
association list from (inode, name) to the stored byte string. -/

abbrev XStore : Type := List ((Nat × String) × List Nat)

/-- Embedding of redisMeta.SetXattr (redis.go): one HSET. -/
def SetXattrM (x : XStore) (inode : Nat) (name : String) (value : List Nat) : XStore :=
  aset x (inode, name) value

/-- Embedding of redisMeta.GetXattr (redis.go): HGET, with redis.Nil turned
into ENOATTR. Returns the errno and the bytes written to the output buffer. -/
def GetXattrM (x : XStore) (inode : Nat) (name : String) : Nat × Option (List Nat) :=
  match aget x (inode, name) with
  | some v => (0, some v)
  | none => (errno (GoErr.errnoE ENOATTR), none)

/-- Embedding of redisMeta.RemoveXattr (redis.go): HDEL, with a zero removal
count turned into ENOATTR. Returns the errno and the new store. -/
def RemoveXattrM (x : XStore) (inode : Nat) (name : String) : Nat × XStore :=
  match aget x (inode, name) with
  | some _ => (0, adel x (inode, name))
  | none => (errno (GoErr.errnoE ENOATTR), adel x (inode, name))

/-! SetAttr. -/

/-- Modelled from the spec: the SetAttr field-selection bitmask constants of
the meta package (declared outside src/); only their distinctness as bits
matters. -/
def SetAttrMode : Nat := 1
def SetAttrUID : Nat := 2
def SetAttrGID : Nat := 4
def SetAttrAtime : Nat := 8
def SetAttrMtime : Nat := 16
def SetAttrAtimeNow : Nat := 32
def SetAttrMtimeNow : Nat := 64

/-- Statement block of redisMeta.SetAttr joining a simultaneous chown and
chmod: the setuid/setgid bits of the current mode are carried into the
requested mode. -/
def setAttrInject (set : Nat) (cur0 attrIn : Attr) : Attr :=
  if (set &&& (SetAttrUID ||| SetAttrGID)) ≠ 0 ∧ (set &&& SetAttrMode) ≠ 0 then
    { attrIn with mode := attrIn.mode ||| (cur0.mode &&& 0o6000) }
  else attrIn

/-- Statement block of redisMeta.SetAttr clearing the setuid/setgid bits of
both the stored and the requested mode on owner or group change. -/
def setAttrClear (set : Nat) (cur0 attr : Attr) : Attr × Attr :=
  if (cur0.mode &&& 0o6000) ≠ 0 ∧ (set &&& (SetAttrUID ||| SetAttrGID)) ≠ 0 then
    ({ cur0 with mode := cur0.mode &&& 0o1777 }, { attr with mode := attr.mode &&& 0o1777 })
  else (cur0, attr)

/-- Statement block of redisMeta.SetAttr applying the requested owner. -/
def setAttrUid (set : Nat) (cur attr : Attr) : Attr :=
  if set &&& SetAttrUID ≠ 0 then { cur with uid := attr.uid } else cur

/-- Statement block of redisMeta.SetAttr applying the requested group. -/
def setAttrGid (set : Nat) (cur attr : Attr) : Attr :=
  if set &&& SetAttrGID ≠ 0 then { cur with gid := attr.gid } else cur

/-- Statement block of redisMeta.SetAttr dropping the setgid bit of a
non-root chmod whose caller gid differs from the (possibly just updated)
file gid. -/
def setAttrChmodClear (set ctxUid ctxGid : Nat) (cur attr : Attr) : Attr :=
  if set &&& SetAttrMode ≠ 0 ∧ ctxUid ≠ 0 ∧ (attr.mode &&& 0o2000) ≠ 0 ∧ ctxGid ≠ cur.gid then
    { attr with mode := attr.mode &&& 0o5777 }
  else attr

/-- Statement block of redisMeta.SetAttr storing the requested mode. -/
def setAttrApplyMode (set : Nat) (cur attr : Attr) : Attr :=
  if set &&& SetAttrMode ≠ 0 then { cur with mode := attr.mode } else cur

/-- Statement block of redisMeta.SetAttr applying the four timestamp
selections and the unconditional ctime refresh. -/
def setAttrTimes (set : Nat) (attrIn : Attr) (now : Int × Nat) (cur : Attr) : Attr :=
  let c1 :=
    if set &&& SetAttrAtime ≠ 0 then
      { cur with atime := attrIn.atime, atimensec := attrIn.atimensec }
    else cur
  let c2 :=
    if set &&& SetAttrAtimeNow ≠ 0 then { c1 with atime := now.1, atimensec := now.2 } else c1
  let c3 :=
    if set &&& SetAttrMtime ≠ 0 then
      { c2 with mtime := attrIn.mtime, mtimensec := attrIn.mtimensec }
    else c2
  let c4 :=
    if set &&& SetAttrMtimeNow ≠ 0 then { c3 with mtime := now.1, mtimensec := now.2 } else c3
  { c4 with ctime := now.1, ctimensec := now.2 }

/-- Embedding of the transaction body of redisMeta.SetAttr (redis.go): given
the selection mask, the caller identity, the current attribute record cur0
read from the store, the caller-supplied attribute attrIn and the
transaction timestamp, returns the attribute record written back. The
statement blocks of the source are applied in source order. -/
def SetAttrM (set : Nat) (ctxUid ctxGid : Nat) (cur0 attrIn : Attr) (now : Int × Nat) : Attr :=
  let attr1 := setAttrInject set cur0 attrIn
  let p := setAttrClear set cur0 attr1
  let cur2 := setAttrUid set p.1 p.2
  let cur3 := setAttrGid set cur2 p.2
  let attr2 := setAttrChmodClear set ctxUid ctxGid cur3 p.2
  let cur4 := setAttrApplyMode set cur3 attr2
  setAttrTimes set attrIn now cur4

/-! Compaction commit aftermath. -/

structure CompactFinish where
  doubleChecked : Bool
  finalErrno : Nat
  newSliceDeleted : Bool
  supersededCleanup : Bool
deriving DecidableEq, Repr

/-- Embedding of the tail of redisMeta.compactChunk (redis.go) after the
commit transaction returned en: the double-check GETs the refcount key of the
newly allocated chunk id only when en is neither 0 nor EINVAL (keyStatus
summarises that GET: ok when the key exists, redisNil when absent, other on a
read error); the branch on the resulting errno then either deletes the new
slice (treated as failed) or runs the superseded-slice cleanup (treated as
successful). -/
def compactChunkFinish (en : Nat) (keyStatus : GoErr) : CompactFinish :=
  let p : Bool × Nat :=
    if en ≠ 0 ∧ en ≠ EINVAL then
      (true,
        if keyStatus = GoErr.redisNil then EINVAL
        else if keyStatus = GoErr.ok then 0
        else en)
    else (false, en)
  { doubleChecked := p.1
    finalErrno := p.2
    newSliceDeleted := if p.2 = EINVAL then true else false
    supersededCleanup := if p.2 = 0 then true else false }

/-! Chunk logs and slice resolution. -/

/-- One slice record of a chunk log, in the field order of the 24-byte wire
record of the source: in-chunk position, chunk id (0 denotes a hole),
declared object size, intra-slice offset, length. -/
structure MSlice where
  pos : Nat
  chunkid : Nat
  size : Nat
  off : Nat
  len : Nat
deriving DecidableEq, Repr

/-- The Slice value emitted to readers (meta.Slice of the source). -/
structure Slice where
  chunkid : Nat
  size : Nat
  off : Nat
  len : Nat
deriving DecidableEq, Repr

/-- Modelled from the spec: the cut operation of the slice interval tree
(type slice with methods cut and visit, declared in the meta package outside
src/). The tree is embedded by its in-order slice list, kept sorted by
in-chunk position; cut splits the covered content at position p into the part
strictly below p and the part from p on, splitting a straddling slice into
two pieces and advancing the intra-slice offset of the right piece, exactly
as the spec describes the insert cutting any overlapping portion of
previously inserted slices. -/
def cutList : List MSlice → Nat → List MSlice × List MSlice
| [], _ => ([], [])
| s :: rest, p =>
  if s.pos + s.len ≤ p then
    let q := cutList rest p
    (s :: q.1, q.2)
  else if p ≤ s.pos then ([], s :: rest)
  else
    ([{ s with len := p - s.pos }],
      { s with pos := p, off := s.off + (p - s.pos), len := s.len - (p - s.pos) } :: rest)

/-- Embedding of the insertion loop of func buildSlice (redis.go): each
logged slice cuts the tree built so far at its two ends, drops the overlapped
middle, and becomes the new root, so the in-order list is the left remainder,
the new slice, then the right remainder. -/
def insertSlice (root : List MSlice) (s : MSlice) : List MSlice :=
  let c1 := cutList root s.pos
  let c2 := cutList c1.2 (s.pos + s.len)
  c1.1 ++ s :: c2.2

/-- Accumulator step of the visit callback in func buildSlice (redis.go): a
gap below the next visible slice is emitted as a hole slice (chunk id 0,
size and length both the gap length), then the slice itself is emitted. -/
def emitStep (acc : Nat × List Slice) (s : MSlice) : Nat × List Slice :=
  let acc2 :=
    if acc.1 < s.pos then (s.pos, acc.2 ++ [⟨0, s.pos - acc.1, 0, s.pos - acc.1⟩]) else acc
  (acc2.1 + s.len, acc2.2 ++ [⟨s.chunkid, s.size, s.off, s.len⟩])

/-- Embedding of func buildSlice (redis.go): insert the logged slices in
append order, then emit the in-order traversal, filling uncovered gaps with
hole slices. -/
def buildSliceM (ss : List MSlice) : List Slice :=
  (List.foldl emitStep (0, []) (List.foldl insertSlice [] ss)).2

/-- Slice record appended to the chunk log by redisMeta.Write (redis.go):
the in-chunk offset argument followed by the fields of the written Slice. -/
def writeRecord (off : Nat) (s : Slice) : MSlice :=
  ⟨off, s.chunkid, s.size, s.off, s.len⟩

/-- Embedding of redisMeta.Write at the level of a single chunk log: RPUSH of
the record. -/
def WriteM (log : List MSlice) (off : Nat) (s : Slice) : List MSlice :=
  log ++ [writeRecord off s]

/-- Embedding of redisMeta.Read at the level of a single chunk log: fetch the
records and resolve them with buildSlice. -/
def ReadM (log : List MSlice) : List Slice :=
  buildSliceM log

/-- Byte source of a chunk position: a zero byte of a hole, or one byte of a
data object identified by chunk id, declared size and offset within it. -/
inductive BSrc where
| hole
| data (chunkid size off : Nat)
deriving DecidableEq, Repr

/-- Byte source a single logged slice assigns to chunk position x when it
covers x: chunk id 0 denotes zeros, otherwise byte off + (x - pos) of the
object (chunkid, size). -/
def sliceAt (s : MSlice) (x : Nat) : Option BSrc :=
  if s.pos ≤ x ∧ x < s.pos + s.len then
    some (if s.chunkid = 0 then BSrc.hole else BSrc.data s.chunkid s.size (s.off + (x - s.pos)))
  else none

/-- Overlay fold from an arbitrary base source: each slice of the list in
turn overwrites the accumulated source at the positions it covers. -/
def logAtF (acc : BSrc) (ss : List MSlice) (x : Nat) : BSrc :=
  List.foldl (fun a s => (sliceAt s x).getD a) acc ss

/-- Reference overlay semantics of a chunk log: the byte source at position x
is that of the last appended slice covering x, zeros when none does. -/
def logAt (ss : List MSlice) (x : Nat) : BSrc :=
  logAtF BSrc.hole ss x

/-- Highest covered position of a chunk log. -/
def logEnd (ss : List MSlice) : Nat :=
  List.foldl (fun m s => max m (s.pos + s.len)) 0 ss

/-- Byte-by-byte expansion of one emitted slice. -/
def sliceBytes (s : Slice) : List BSrc :=
  (List.range s.len).map fun j =>
    if s.chunkid = 0 then BSrc.hole else BSrc.data s.chunkid s.size (s.off + j)

/-- Byte-by-byte expansion of an emitted slice sequence, reading the emitted
slices as consecutive ranges of the chunk. -/
def outBytes (out : List Slice) : List BSrc :=
  List.foldl (fun acc s => acc ++ sliceBytes s) [] out

/-- Sortedness invariant of an in-order tree list: every slice starts at or
after p, has positive length, and the remainder starts at or after its end. -/
def Chain : Nat → List MSlice → Prop
| _, [] => True
| p, s :: rest => p ≤ s.pos ∧ 0 < s.len ∧ Chain (s.pos + s.len) rest

instance instDecChain : (p : Nat) → (l : List MSlice) → Decidable (Chain p l)
| _, [] => isTrue trivial
| p, s :: rest =>
  match instDecChain (s.pos + s.len) rest with
  | isTrue hc =>
    if hp : p ≤ s.pos ∧ 0 < s.len then isTrue ⟨hp.1, hp.2, hc⟩
    else isFalse fun hx => hp ⟨hx.1, hx.2.1⟩
  | isFalse hc => isFalse fun hx => hc hx.2.2

/-- End position of a chain list, relative to start position p. -/
def endFrom (p : Nat) : List MSlice → Nat
| [] => p
| s :: rest => endFrom (s.pos + s.len) rest

/-! Truncate. The chunk logs of the truncated inode are embedded as an
association list from chunk index to record list; a Redis list key exists
exactly when it is present in the association list. -/

abbrev ChunkLogs : Type := List (Nat × List MSlice)

/-- RPUSH on a chunk log: append, creating the key when absent. -/
def rpushL (logs : ChunkLogs) (i : Nat) (rec : MSlice) : ChunkLogs :=
  match aget logs i with
  | some l => aset logs i (l ++ [rec])
  | none => aset logs i [rec]

/-- RPUSHX on a chunk log: append only when the key exists. -/
def rpushxL (logs : ChunkLogs) (i : Nat) (rec : MSlice) : ChunkLogs :=
  match aget logs i with
  | some l => aset logs i (l ++ [rec])
  | none => logs

/-- Embedding of func align4K (redis.go). -/
def align4K (length : Nat) : Int :=
  if length = 0 then 0 else ((((((length - 1) >>> 12) + 1) <<< 12 : Nat)) : Int)

/-- Hole record with the given in-chunk position and length: chunk id 0,
size 0, offset 0, as redisMeta.Truncate writes it. -/
def holeRec (pos len : Nat) : MSlice := ⟨pos, 0, 0, 0, len⟩

/-- Chunk indices receiving an RPUSHX hole in redisMeta.Truncate: the SCAN
branch enumerates the existing chunk keys of the inode and keeps indices
strictly between the old and the new last chunk; the dense branch enumerates
the same index interval directly. cs is the spec constant ChunkSize (declared
outside src/), left as a parameter. -/
def zeroChunksOf (cs old length : Nat) (logs : ChunkLogs) : List Nat :=
  if (length - old) / cs ≥ 100 then
    (logs.map Prod.fst).filter fun i => decide (old / cs < i ∧ i < length / cs)
  else
    List.range' (old / cs + 1) (length / cs - (old / cs + 1))

structure TruncResult where
  logs : ChunkLogs
  delta : Int
  newLength : Nat
deriving DecidableEq, Repr

/-- Embedding of the transaction body of redisMeta.Truncate (redis.go) for a
regular file of current length old, restricted to its effect on the chunk
logs, the usedSpace delta and the stored length: when growing, a hole record
is RPUSHed to the first affected chunk (covering to its end, or to the new
length when that stays within the same chunk), a full-chunk hole is RPUSHXed
to every strictly intermediate chunk, and when the new length lies beyond the
first chunk boundary and is not chunk-aligned a tail hole is RPUSHed to the
last chunk. -/
def TruncateM (cs old length : Nat) (logs : ChunkLogs) : TruncResult :=
  if old < length then
    let zc := zeroChunksOf cs old length logs
    let firstLen := if (old / cs + 1) * cs < length then cs - old % cs else length - old
    let logs1 := rpushL logs (old / cs) (holeRec (old % cs) firstLen)
    let logs2 := List.foldl (fun lg i => rpushxL lg i (holeRec 0 cs)) logs1 zc
    let logs3 :=
      if (old / cs + 1) * cs < length ∧ 0 < length % cs then
        rpushL logs2 (length / cs) (holeRec 0 (length % cs))
      else logs2
    ⟨logs3, align4K length - align4K old, length⟩
  else ⟨logs, align4K length - align4K old, length⟩

/-! CopyFileRange. -/

def U32 : Nat := 4294967296
def U64 : Nat := 18446744073709551616

/-- Wrapping uint32 subtraction a - b as the Go source computes it. -/
def sub32 (a b : Nat) : Nat := (a % U32 + (U32 - b % U32)) % U32

/-- Wrapping uint64 subtraction a - b as the Go source computes it, truncated
to uint32 by the cast at the subtraction site. -/
def sub64to32 (a b : Nat) : Nat := ((a % U64 + (U64 - b % U64)) % U64) % U32

/-- One write operation of the committed CopyFileRange pipeline: RPUSH of a
record onto a chunk log of an inode, INCR of a slice refcount key, SET of an
inode attribute record, or INCRBY on the usedSpace counter. -/
inductive COp where
| push (ino indx : Nat) (rec : MSlice)
| incrSlice (chunkid size : Nat)
| setInode (ino : Nat) (a : Attr)
| incrUsed (d : Int)
deriving DecidableEq, Repr

/-- Records emitted for one clipped visible slice by the inner loop of
redisMeta.CopyFileRange: a record landing across the destination chunk
boundary is split into two records, and each stored record with a nonzero
chunk id is followed by an INCR of its slice refcount key. -/
def emitCopySlice (cs fout indx dpos : Nat) (s : Slice) : List COp :=
  if cs < dpos + s.len then
    COp.push fout indx ⟨dpos, s.chunkid, s.size, s.off, cs - dpos⟩ ::
      ((if 0 < s.chunkid then [COp.incrSlice s.chunkid s.size] else []) ++
        (COp.push fout (indx + 1) ⟨0, s.chunkid, s.size, s.off + (cs - dpos), s.len - (cs - dpos)⟩ ::
          (if 0 < s.chunkid then [COp.incrSlice s.chunkid s.size] else [])))
  else
    COp.push fout indx ⟨dpos, s.chunkid, s.size, s.off, s.len⟩ ::
      (if 0 < s.chunkid then [COp.incrSlice s.chunkid s.size] else [])

/-- Clipping and reprojection of one emitted slice of a source chunk against
the copied window [offIn, offIn + size), from the inner loop of
redisMeta.CopyFileRange: pos is the slice's start within the source chunk that
begins at absolute file offset coff. A slice overlapping the window is trimmed
exactly at the left edge and, at the right edge, with the wrapping unsigned
arithmetic of the source, then emitted at the shifted destination offset; a
slice outside the window emits nothing. -/
def copySliceOps (cs fout offIn offOut size coff pos : Nat) (s : Slice) : List COp :=
  if coff + pos < offIn + size ∧ offIn < coff + pos + s.len then
    let c1 : Nat × Slice :=
      if coff + pos < offIn then
        let dec := offIn - coff - pos
        (pos + dec, { s with off := s.off + dec, len := s.len - dec })
      else (pos, s)
    let s2 :=
      if offIn + size < coff + c1.1 + c1.2.len then
        { c1.2 with
          len := sub32 c1.2.len (sub64to32 (offIn + size) (coff + c1.1 + c1.2.len)) }
      else c1.2
    let doff := coff + c1.1 - offIn + offOut
    emitCopySlice cs fout (doff / cs) (doff % cs) s2
  else []

/-- Fold step over the emitted slices of one source chunk: advance the
in-chunk position by the slice length and append the operations of the
clipped slice. -/
def copyStep (cs fout offIn offOut size coff : Nat) (acc : Nat × List COp) (s : Slice) :
    Nat × List COp :=
  (acc.1 + s.len, acc.2 ++ copySliceOps cs fout offIn offOut size coff acc.1 s)

/-- Operations emitted for one source chunk (starting at absolute file offset
coff) by redisMeta.CopyFileRange: the source chunk log is resolved with
buildSlice after prepending a full-chunk hole, and every emitted slice
overlapping the copied window is clipped to it and reprojected at the shifted
destination offset. -/
def copyChunkOps (cs fout offIn offOut size coff : Nat) (slices : List MSlice) : List COp :=
  (List.foldl (copyStep cs fout offIn offOut size coff) (0, [])
    (buildSliceM (⟨0, 0, 0, 0, cs⟩ :: slices))).2

/-- Embedding of the transaction body of redisMeta.CopyFileRange (redis.go)
for a destination inode fout whose attribute record dattr and source attribute
record sattr exist (the source inode itself is not consulted by the writes):
getChunk gives the source chunk logs read inside the transaction. Returns
the errno, the copied byte count, and the write operations of the committed
pipeline in order. -/
def CopyFileRangeM (cs fout offIn offOut size0 : Nat) (sattr dattr : Attr)
    (getChunk : Nat → List MSlice) (now : Int × Nat) : Nat × Nat × List COp :=
  if sattr.typ ≠ TypeFile then (EINVAL, 0, [])
  else if sattr.length ≤ offIn then (0, 0, [])
  else
    let size := if sattr.length < offIn + size0 then sattr.length - offIn else size0
    if dattr.typ ≠ TypeFile then (EINVAL, 0, [])
    else
      let newleng := offOut + size
      let added : Int :=
        if dattr.length < newleng then align4K newleng - align4K dattr.length else 0
      let dattr2 : Attr :=
        { dattr with
          length := max dattr.length newleng,
          mtime := now.1, mtimensec := now.2, ctime := now.1, ctimensec := now.2 }
      let idxs := List.range' (offIn / cs) ((offIn + size) / cs - offIn / cs + 1)
      let chunkOps :=
        (idxs.map fun i => copyChunkOps cs fout offIn offOut size (i * cs) (getChunk i)).flatten
      (0, size,
        chunkOps ++ [COp.setInode fout dattr2] ++ (if 0 < added then [COp.incrUsed added] else []))

/-- Whether a pipeline operation writes a key belonging to inode ino: an
RPUSH writes a chunk key of its inode and a SET writes its attribute record,
while slice refcount keys and the usedSpace counter belong to no inode. -/
def opTouches (op : COp) (ino : Nat) : Bool :=
  match op with
  | COp.push i _ _ => i = ino
  | COp.setInode i _ => i = ino
  | COp.incrSlice _ _ => false
  | COp.incrUsed _ => false

/-- Whether an operation is an INCR of a slice refcount key. -/
def isIncrSlice (op : COp) : Bool :=
  match op with
  | COp.incrSlice _ _ => true
  | _ => false

/-- Whether an operation stores a slice record whose chunk id is greater than
zero, that is, a record referencing a data object rather than a hole. -/
def isLivePush (op : COp) : Bool :=
  match op with
  | COp.push _ _ r => 0 < r.chunkid
  | _ => false

/-- Destination chunk index and record of every RPUSH in an operation list,
in order. -/
def pushRecs (l : List COp) : List (Nat × MSlice) :=
  l.filterMap fun op =>
    match op with
    | COp.push _ indx r => some (indx, r)
    | _ => none

/-- Classifier of the operations the CopyFileRange pipeline may emit: chunk
RPUSHes and attribute SETs on the destination inode fout, slice refcount
INCRs and usedSpace INCRBYs. -/
def copyOpOK (fout : Nat) (op : COp) : Bool :=
  match op with
  | COp.push i _ _ => i = fout
  | COp.setInode i _ => i = fout
  | COp.incrSlice _ _ => true
  | COp.incrUsed _ => true

/-! Directory-tree state machine: the slice of the keyspace touched by the
namespace transactions (inode records, directory entry hashes, symlink
targets, xattr hashes, the two global counters and the delfiles queue). -/

structure FS where
  inodes : List (Nat × Attr)
  entries : List ((Nat × String) × (Nat × Nat))
  syms : List (Nat × String)
  xattrs : List (Nat × List (String × List Nat))
  used : Int
  totalI : Int
  delq : List (Nat × Nat)
deriving DecidableEq, Repr

/-- HLEN of the entry hash of a directory: the number of its children. -/
def childCount (fs : FS) (dir : Nat) : Nat :=
  (fs.entries.filter fun e => decide (e.1.1 = dir)).length

/-- Number of children of a directory whose stored entry type is directory. -/
def dirChildCount (fs : FS) (dir : Nat) : Nat :=
  (fs.entries.filter fun e => decide (e.1.1 = dir ∧ e.2.1 = TypeDirectory)).length

/-- Invariant check of the spec: every directory inode records
nlink = 2 + number of subdirectory entries. -/
def dirNlinkOK (fs : FS) : Bool :=
  fs.inodes.all fun p =>
    decide (p.2.typ = TypeDirectory → p.2.nlink = 2 + dirChildCount fs p.1)

/-- Embedding of redisMeta.mknod (redis.go), which also implements Mknod,
Mkdir, Create and Symlink: ino is the identifier drawn from the external
allocation counter, path the symlink target, and the Hadoop behavior flag of
the caller context is absent. Success returns the new state and the
attribute stored for the child. -/
def mknodM (fs : FS) (parent : Nat) (name : String) (typ mode cumask rdev : Nat)
    (path : String) (ino : Nat) (ctxUid ctxGid : Nat) (now : Int × Nat) :
    Except Nat (FS × Attr) :=
  let a1 : Attr :=
    { attr0 with
      typ := typ, mode := mode &&& (cumask ^^^ 65535), uid := ctxUid, gid := ctxGid,
      parent := parent }
  let a2 : Attr :=
    if typ = TypeDirectory then { a1 with nlink := 2, length := 4096 }
    else if typ = TypeSymlink then { a1 with nlink := 1, length := path.length }
    else { a1 with nlink := 1, length := 0, rdev := rdev }
  match aget fs.inodes parent with
  | none => Except.error ENOENT
  | some pattr0 =>
    if pattr0.typ ≠ TypeDirectory then Except.error ENOTDIR
    else match aget fs.entries (parent, name) with
      | some _ => Except.error EEXIST
      | none =>
        let pattr1 := if typ = TypeDirectory then { pattr0 with nlink := pattr0.nlink + 1 } else pattr0
        let pattr :=
          { pattr1 with mtime := now.1, mtimensec := now.2, ctime := now.1, ctimensec := now.2 }
        let attr :=
          { a2 with
            atime := now.1, atimensec := now.2, mtime := now.1, mtimensec := now.2,
            ctime := now.1, ctimensec := now.2 }
        Except.ok
          ({ fs with
              entries := aset fs.entries (parent, name) (typ, ino),
              inodes := aset (aset fs.inodes parent pattr) ino attr,
              syms := if typ = TypeSymlink then aset fs.syms ino path else fs.syms,
              totalI := fs.totalI + 1 }, attr)

/-- Embedding of redisMeta.Rmdir (redis.go) in the sequential case (the
pre-transaction read and the in-transaction re-read see the same state). -/
def rmdirM (fs : FS) (parent : Nat) (name : String) (now : Int × Nat) : Except Nat FS :=
  if name = "." then Except.error EINVAL
  else if name = ".." then Except.error ENOTEMPTY
  else match aget fs.entries (parent, name) with
  | none => Except.error ENOENT
  | some (typ, inode) =>
    if typ ≠ TypeDirectory then Except.error ENOTDIR
    else match aget fs.inodes parent with
      | none => Except.error ENOENT
      | some pattr0 =>
        if pattr0.typ ≠ TypeDirectory then Except.error ENOTDIR
        else
          let pattr :=
            { pattr0 with
              nlink := pattr0.nlink - 1,
              mtime := now.1, mtimensec := now.2, ctime := now.1, ctimensec := now.2 }
          if 0 < childCount fs inode then Except.error ENOTEMPTY
          else
            Except.ok
              { fs with
                entries := adel fs.entries (parent, name),
                inodes := adel (aset fs.inodes parent pattr) inode,
                xattrs := adel fs.xattrs inode,
                totalI := fs.totalI - 1 }

/-- Writes of the committed Rename pipeline to the inode table for an
existing destination entry (dino, dtyp): a non-directory destination with
remaining links is rewritten with its decremented attribute tattr; a
directory, symlink or file destination has its inode record deleted; any
other kind falls through the type switch with no write. -/
def renameDstWrites (fs0 : List (Nat × Attr)) (dino dtyp : Nat) (tattr : Attr) :
    List (Nat × Attr) :=
  if dtyp ≠ TypeDirectory ∧ 0 < tattr.nlink then aset fs0 dino tattr
  else if dtyp = TypeDirectory then adel fs0 dino
  else if dtyp = TypeSymlink then adel fs0 dino
  else if dtyp = TypeFile then adel fs0 dino
  else fs0

/-- Embedding of redisMeta.Rename (redis.go) in the sequential case: the
pre-transaction reads and the in-transaction re-reads see the same state (so
the EAGAIN re-validation never fires), and no file is held open (the
in-memory openFiles map is empty, so the opened flag is always false).
Checks are performed in source order: destination-entry processing first,
then the MGET of the two parents and the moved inode. -/
def renameM (fs : FS) (parentSrc : Nat) (nameSrc : String) (parentDst : Nat) (nameDst : String)
    (now : Int × Nat) : Except Nat FS :=
  match aget fs.entries (parentSrc, nameSrc) with
  | none => Except.error ENOENT
  | some (typ, ino) =>
    if parentSrc = parentDst ∧ nameSrc = nameDst then Except.ok fs
    else
      let dstPhase : Except Nat (Option (Nat × Nat × Attr)) :=
        match aget fs.entries (parentDst, nameDst) with
        | none => Except.ok none
        | some (dtyp, dino) =>
          if dtyp = TypeDirectory then
            if childCount fs dino ≠ 0 then Except.error ENOTEMPTY
            else Except.ok (some (dtyp, dino, attr0))
          else
            match aget fs.inodes dino with
            | none => Except.error ENOENT
            | some t0 =>
              let t1 : Attr := { t0 with nlink := t0.nlink - 1 }
              let tattr : Attr :=
                if 0 < t1.nlink then { t1 with ctime := now.1, ctimensec := now.2 } else t1
              Except.ok (some (dtyp, dino, tattr))
      match dstPhase with
      | Except.error e => Except.error e
      | Except.ok dst =>
        match aget fs.inodes parentSrc, aget fs.inodes parentDst, aget fs.inodes ino with
        | some sattr0, some dattr0, some iattr0 =>
          if sattr0.typ ≠ TypeDirectory then Except.error ENOTDIR
          else if dattr0.typ ≠ TypeDirectory then Except.error ENOTDIR
          else
            let sattr1 : Attr :=
              { sattr0 with mtime := now.1, mtimensec := now.2, ctime := now.1, ctimensec := now.2 }
            let dattr1 : Attr :=
              { dattr0 with mtime := now.1, mtimensec := now.2, ctime := now.1, ctimensec := now.2 }
            let iattr : Attr :=
              { iattr0 with parent := parentDst, ctime := now.1, ctimensec := now.2 }
            let moveDir := typ = TypeDirectory ∧ parentSrc ≠ parentDst
            let sattr : Attr :=
              if moveDir then { sattr1 with nlink := sattr1.nlink - 1 } else sattr1
            let dattr : Attr :=
              if moveDir then { dattr1 with nlink := dattr1.nlink + 1 } else dattr1
            match dst with
            | some (dtyp, dino, tattr) =>
              let dattr2 : Attr :=
                if dtyp = TypeDirectory then { dattr with nlink := dattr.nlink - 1 } else dattr
              let inodes1 := aset fs.inodes parentSrc sattr
              let inodes2 := renameDstWrites inodes1 dino dtyp tattr
              let inodes3 :=
                if parentDst ≠ parentSrc then aset inodes2 parentDst dattr2 else inodes2
              let inodes4 := aset inodes3 ino iattr
              Except.ok
                { fs with
                  entries :=
                    aset (adel (adel fs.entries (parentSrc, nameSrc)) (parentDst, nameDst))
                      (parentDst, nameDst) (typ, ino),
                  inodes := inodes4,
                  syms := if dtyp = TypeSymlink then adel fs.syms dino else fs.syms,
                  xattrs :=
                    if dtyp ≠ TypeDirectory ∧ 0 < tattr.nlink then fs.xattrs
                    else adel fs.xattrs dino,
                  used :=
                    if dtyp = TypeFile ∧ tattr.nlink = 0 then fs.used - align4K tattr.length
                    else fs.used,
                  totalI :=
                    if dtyp ≠ TypeDirectory ∧ 0 < tattr.nlink then fs.totalI
                    else fs.totalI - 1,
                  delq :=
                    if dtyp = TypeFile ∧ tattr.nlink = 0 then fs.delq ++ [(dino, dattr2.length)]
                    else fs.delq }
            | none =>
              let inodes1 := aset fs.inodes parentSrc sattr
              let inodes2 :=
                if parentDst ≠ parentSrc then aset inodes1 parentDst dattr else inodes1
              let inodes3 := aset inodes2 ino iattr
              Except.ok
                { fs with
                  entries :=
                    aset (adel fs.entries (parentSrc, nameSrc)) (parentDst, nameDst) (typ, ino),
                  inodes := inodes3 }
        | _, _, _ => Except.error ENOENT

/-- Root attribute record as redisMeta.Init writes it. -/
def rootAttr (ts : Int) : Attr :=
  { attr0 with
    typ := TypeDirectory, mode := 0o777, atime := ts, mtime := ts, ctime := ts,
    nlink := 2, length := 4096, parent := 1 }

/-- Freshly formatted volume: only the root inode record exists. -/
def fsInit : FS := ⟨[(1, rootAttr 0)], [], [], [], 0, 0, []⟩

/-- Scenario step one: mkdir of name a under the root, allocating inode 2. -/
def fsA : FS :=
  match mknodM fsInit 1 "a" TypeDirectory 0o755 0o22 0 "" 2 0 0 (1, 0) with
  | Except.ok p => p.1
  | Except.error _ => fsInit

/-- Scenario step two: mkdir of name b under the root, allocating inode 3. -/
def fsAB : FS :=
  match mknodM fsA 1 "b" TypeDirectory 0o755 0o22 0 "" 3 0 0 (2, 0) with
  | Except.ok p => p.1
  | Except.error _ => fsInit

/-- Scenario step three: same-parent rename of directory a onto the existing
empty directory b. -/
def fsRenamed : Except Nat FS := renameM fsAB 1 "a" 1 "b" (3, 0)

/-! Theorems. -/

theorem txnFrom_stop (a : Nat → GoErr) (r : Nat → Nat) (i : Nat) (h : i < 50)
    (hne : a i ≠ GoErr.txFailed) : txnFrom a r i = (errno (a i), 1, []) := by
  rw [txnFrom, dif_pos h, if_neg hne]

theorem txnFrom_retry (a : Nat → GoErr) (r : Nat → Nat) (i : Nat) (h : i < 50)
    (he : a i = GoErr.txFailed) :
    txnFrom a r i = ((txnFrom a r (i + 1)).1, (txnFrom a r (i + 1)).2.1 + 1,
      100 * (r i % (i + 1)) :: (txnFrom a r (i + 1)).2.2) := by
  rw [txnFrom, dif_pos h, if_pos he]

theorem txnFrom_exhausted (a : Nat → GoErr) (r : Nat → Nat) (i : Nat) (h : ¬ i < 50) :
    txnFrom a r i = ( EIO, 0, []) := by
  rw [txnFrom, dif_neg h]
  rfl

theorem txnFrom_spec (a : Nat → GoErr) (r : Nat → Nat) :
    ∀ k i, 50 ≤ i + k →
      (i < 50 → 1 ≤ (txnFrom a r i).2.1) ∧
      (txnFrom a r i).2.1 ≤ 50 - i ∧
      (∀ j, i ≤ j → j + 1 < i + (txnFrom a r i).2.1 → a j = GoErr.txFailed) ∧
      (i < 50 → (txnFrom a r i).1 = errno (a (i + (txnFrom a r i).2.1 - 1))) ∧
      (i + (txnFrom a r i).2.1 < 50 → a (i + (txnFrom a r i).2.1 - 1) ≠ GoErr.txFailed) ∧
      (txnFrom a r i).2.2 =
        (List.range (txnFrom a r i).2.2.length).map (fun k => 100 * (r (i + k) % (i + k + 1))) ∧
      (i < 50 →
        (txnFrom a r i).2.2.length =
          if a (i + (txnFrom a r i).2.1 - 1) = GoErr.txFailed then (txnFrom a r i).2.1
          else (txnFrom a r i).2.1 - 1) := by
  intro k
  induction k with
  | zero =>
    intro i hi
    have hge : ¬ i < 50 := by omega
    rw [txnFrom_exhausted a r i hge]
    simp only []
    refine ⟨fun h => absurd h hge, by omega, ?_, fun h => absurd h hge, ?_, by simp,
      fun h => absurd h hge⟩
    · intro j hj hlt; omega
    · intro h; omega
  | succ k ih =>
    intro i hi
    by_cases hlt : i < 50
    · by_cases hfail : a i = GoErr.txFailed
      · rw [txnFrom_retry a r i hlt hfail]
        simp only []
        have hrec := ih (i + 1) (by omega)
        set t := txnFrom a r (i + 1) with ht
        obtain ⟨h1, h2, h3, h4, h5, h6, h7⟩ := hrec
        by_cases h50 : i + 1 < 50
        · have hn1 : 1 ≤ t.2.1 := h1 h50
          refine ⟨fun _ => by omega, by omega, ?_, ?_, ?_, ?_, ?_⟩
          · intro j hj hjlt
            rcases Nat.eq_or_lt_of_le hj with heq | hgt
            · rw [← heq]; exact hfail
            · exact h3 j (by omega) (by omega)
          · intro _
            rw [h4 h50]
            have harg : i + 1 + t.2.1 - 1 = i + (t.2.1 + 1) - 1 := by omega
            rw [harg]
          · intro hbound
            have h5x := h5 (by omega)
            have harg : i + 1 + t.2.1 - 1 = i + (t.2.1 + 1) - 1 := by omega
            rw [harg] at h5x
            exact h5x
          · simp only [List.length_cons]
            rw [List.range_succ_eq_map]
            simp only [List.map_cons, List.map_map]
            congr 1
            conv_lhs => rw [h6]
            apply List.map_congr_left
            intro x hx
            simp only [Function.comp, Nat.succ_eq_add_one]
            have e1 : i + 1 + x = i + (x + 1) := by omega
            rw [e1]
          · intro _
            simp only [List.length_cons]
            have harg : i + 1 + t.2.1 - 1 = i + (t.2.1 + 1) - 1 := by omega
            rw [harg] at h7
            have h7x := h7 h50
            by_cases hl : a (i + (t.2.1 + 1) - 1) = GoErr.txFailed
            · rw [if_pos hl] at h7x; rw [if_pos hl]; omega
            · rw [if_neg hl] at h7x; rw [if_neg hl]; omega
        · have hi49 : i = 49 := by omega
          have ht50 : t = ( EIO, 0, []) := by
            rw [ht]; exact txnFrom_exhausted a r (i + 1) (by omega)
          rw [ht50]
          simp only []
          refine ⟨fun _ => by omega, by omega, ?_, ?_, ?_, by simp [List.range_succ], ?_⟩
          · intro j hj hjlt
            have hje : j = i := by omega
            subst hje
            exact hfail
          · intro _
            have harg : i + (0 + 1) - 1 = i := by omega
            rw [harg, hfail]
            rfl
          · intro hbad; omega
          · intro _
            have harg : i + (0 + 1) - 1 = i := by omega
            rw [harg, if_pos hfail]
            simp
      · rw [txnFrom_stop a r i hlt hfail]
        simp only []
        refine ⟨fun _ => le_refl 1, by omega, ?_, ?_, ?_, by simp, ?_⟩
        · intro j hj hjlt; omega
        · intro _
          have harg : i + 1 - 1 = i := by omega
          rw [harg]
        · intro _
          have harg : i + 1 - 1 = i := by omega
          rw [harg]; exact hfail
        · intro _
          have harg : i + 1 - 1 = i := by omega
          rw [harg, if_neg hfail]
          rfl
    · rw [txnFrom_exhausted a r i hlt]
      simp only []
      refine ⟨fun h => absurd h hlt, by omega, ?_, fun h => absurd h hlt, ?_, by simp,
        fun h => absurd h hlt⟩
      · intro j hj hjlt; omega
      · intro h; omega

/-- Claim C7: the transaction runner retries a conflicting optimistic
transaction at most 50 times (at least one and at most 50 attempts run, all
attempts before the last one were conflicts), sleeps 100 microseconds times
rand mod (i + 1) before retry i + 1, and maps the final outcome through
errno: a missing key becomes ENOENT, a POSIX errno passes through unchanged,
any other error becomes EIO, and nil becomes 0. -/
theorem txn_retry_and_errno_mapping (a : Nat → GoErr) (r : Nat → Nat) :
    1 ≤ (txnM a r).2.1 ∧
    (txnM a r).2.1 ≤ 50 ∧
    (∀ j, j + 1 < (txnM a r).2.1 → a j = GoErr.txFailed) ∧
    ((txnM a r).2.1 < 50 → a ((txnM a r).2.1 - 1) ≠ GoErr.txFailed) ∧
    (txnM a r).1 = errno (a ((txnM a r).2.1 - 1)) ∧
    (txnM a r).2.2 =
      (List.range (txnM a r).2.2.length).map (fun k => 100 * (r k % (k + 1))) ∧
    errno GoErr.ok = 0 ∧
    errno GoErr.redisNil = ENOENT ∧
    (∀ e, errno (GoErr.errnoE e) = e) ∧
    errno GoErr.other = EIO ∧
    errno GoErr.txFailed = EIO := by
  have h := txnFrom_spec a r 50 0 (by omega)
  obtain ⟨h1, h2, h3, h4, h5, h6, h7⟩ := h
  simp only [txnM]
  have h50 : (0 : Nat) < 50 := by omega
  refine ⟨h1 h50, by omega, ?_, ?_, ?_, ?_, rfl, rfl, fun e => rfl, rfl, rfl⟩
  · intro j hj
    exact h3 j (Nat.zero_le j) (by omega)
  · intro hlt
    have := h5 (by omega)
    simpa using this
  · have := h4 h50
    simpa using this
  · simpa using h6

theorem txnM_concrete_run :
    txnM (fun i => if i = 0 then GoErr.txFailed else GoErr.redisNil) (fun _ => 7) =
      (ENOENT, 2, [0]) := by
  have e0 : (fun i => if i = 0 then GoErr.txFailed else GoErr.redisNil) 0 = GoErr.txFailed := rfl
  have e1 : (fun i => if i = 0 then GoErr.txFailed else GoErr.redisNil) 1 ≠ GoErr.txFailed := by
    decide
  rw [txnM, txnFrom_retry _ _ 0 (by omega) e0, txnFrom_stop _ _ 1 (by omega) e1]
  rfl

/-- Witness for claim C7 at a concrete schedule: the second attempt succeeds
with a missing key after one conflict, so two attempts run, one zero-length
sleep is performed, and the result is ENOENT. -/
theorem txn_retry_and_errno_mapping_witness :
    (txnM (fun i => if i = 0 then GoErr.txFailed else GoErr.redisNil) (fun _ => 7)).2.1 ≤ 50 ∧
    (txnM (fun i => if i = 0 then GoErr.txFailed else GoErr.redisNil) (fun _ => 7)).1 =
      errno ((fun i => if i = 0 then GoErr.txFailed else GoErr.redisNil)
        ((txnM (fun i => if i = 0 then GoErr.txFailed else GoErr.redisNil)
          (fun _ => 7)).2.1 - 1)) ∧
    txnM (fun i => if i = 0 then GoErr.txFailed else GoErr.redisNil) (fun _ => 7) =
      (ENOENT, 2, [0]) := by
  have h := txn_retry_and_errno_mapping
    (fun i => if i = 0 then GoErr.txFailed else GoErr.redisNil) (fun _ => 7)
  exact ⟨h.2.1, h.2.2.2.2.1, txnM_concrete_run⟩

/-- Claim C8: GetAttr on the root inode (inode 1) never returns an error:
its read carries a 300 ms deadline, and on any read failure it returns 0
with a synthetic directory attribute (type directory, mode 0777, nlink 2,
length 4096); for every non-root inode a missing record returns ENOENT. -/
theorem getattr_root_never_fails :
    getAttrDeadlineMs 1 = some 300 ∧
    (∀ i, i ≠ 1 → getAttrDeadlineMs i = none) ∧
    (∀ readErr stored attrIn, (GetAttrM 1 readErr stored attrIn).1 = 0) ∧
    (∀ readErr stored attrIn, readErr ≠ GoErr.ok →
      (GetAttrM 1 readErr stored attrIn).2.typ = TypeDirectory ∧
      (GetAttrM 1 readErr stored attrIn).2.mode = 0o777 ∧
      (GetAttrM 1 readErr stored attrIn).2.nlink = 2 ∧
      (GetAttrM 1 readErr stored attrIn).2.length = 4096) ∧
    (∀ i stored attrIn, i ≠ 1 → (GetAttrM i GoErr.redisNil stored attrIn).1 = ENOENT) := by
  refine ⟨rfl, ?_, ?_, ?_, ?_⟩
  · intro i hi
    simp [getAttrDeadlineMs, hi]
  · intro readErr stored attrIn
    by_cases h : readErr = GoErr.ok
    · subst h
      simp [GetAttrM, errno]
    · simp [GetAttrM, h, errno]
  · intro readErr stored attrIn h
    simp [GetAttrM, h]
  · intro i stored attrIn hi
    simp [GetAttrM, hi, errno]

/-- Witness for claim C8: concrete timed-out root read and missing non-root
record. -/
theorem getattr_root_never_fails_witness :
    (GetAttrM 1 GoErr.other attr0 attr0).1 = 0 ∧
    (GetAttrM 1 GoErr.other attr0 attr0).2.nlink = 2 ∧
    (GetAttrM 5 GoErr.redisNil attr0 attr0).1 = ENOENT := by
  have h := getattr_root_never_fails
  exact ⟨h.2.2.1 GoErr.other attr0 attr0,
    (h.2.2.2.1 GoErr.other attr0 attr0 (by simp)).2.2.1,
    h.2.2.2.2 5 attr0 attr0 (by simp)⟩

/-- Claim C10: Open always returns 0 for every inode and flags, even when
the attribute fetch fails; the error is discarded, and the in-memory
open-file counter is incremented exactly when the attribute fetch succeeded
or no attribute was requested. -/
theorem open_always_returns_zero :
    (∀ inode attrRequested readErr stored attrIn openCount,
      (OpenM inode attrRequested readErr stored attrIn openCount).1 = 0) ∧
    (∀ inode attrRequested readErr stored attrIn openCount,
      (OpenM inode attrRequested readErr stored attrIn openCount).2 =
        if attrRequested = false ∨ (GetAttrM inode readErr stored attrIn).1 = 0 then
          openCount + 1
        else openCount) ∧
    (∀ inode stored attrIn openCount, inode ≠ 1 →
      OpenM inode true GoErr.redisNil stored attrIn openCount = (0, openCount)) := by
  refine ⟨fun _ _ _ _ _ _ => rfl, ?_, ?_⟩
  · intro inode attrRequested readErr stored attrIn openCount
    cases attrRequested with
    | false => simp [OpenM]
    | true =>
      by_cases h : (GetAttrM inode readErr stored attrIn).1 = 0
      · simp [OpenM, h]
      · simp [OpenM, h]
  · intro inode stored attrIn openCount hi
    have hget : (GetAttrM inode GoErr.redisNil stored attrIn).1 = ENOENT := by
      simp [GetAttrM, hi, errno]
    simp [OpenM, hget, ENOENT]

/-- Witness for claim C10: opening a nonexistent inode (missing attribute
record) still returns 0 and leaves the counter unchanged. -/
theorem open_always_returns_zero_witness :
    OpenM 7 true GoErr.redisNil attr0 attr0 3 = (0, 3) := by
  exact (open_always_returns_zero).2.2 7 attr0 attr0 3 (by simp)

theorem aget_aset_self {α β : Type} [DecidableEq α] (l : List (α × β)) (k : α) (v : β) :
    aget (aset l k v) k = some v := by
  induction l with
  | nil => simp [aset, aget]
  | cons p rest ih =>
    obtain ⟨q, w⟩ := p
    by_cases h : q = k
    · simp [aset, aget, h]
    · simp [aset, aget, h, ih]

theorem aget_adel_self {α β : Type} [DecidableEq α] (l : List (α × β)) (k : α) :
    aget (adel l k) k = none := by
  induction l with
  | nil => simp [adel, aget]
  | cons p rest ih =>
    obtain ⟨q, w⟩ := p
    by_cases h : q = k
    · simp [adel, h, ih]
    · simp [adel, aget, h, ih]

/-- Claim C9: xattr set/get round-trips: after SetXattr, GetXattr of the
same inode and name returns exactly the stored value; GetXattr of a name
never set returns ENOATTR; and GetXattr after RemoveXattr returns ENOATTR. -/
theorem xattr_set_get_roundtrip :
    (∀ (x : XStore) inode name value,
      GetXattrM (SetXattrM x inode name value) inode name = (0, some value)) ∧
    (∀ (x : XStore) inode name,
      aget x (inode, name) = none → GetXattrM x inode name = (ENOATTR, none)) ∧
    (∀ (x : XStore) inode name,
      GetXattrM (RemoveXattrM x inode name).2 inode name = (ENOATTR, none)) := by
  refine ⟨?_, ?_, ?_⟩
  · intro x inode name value
    simp [GetXattrM, SetXattrM, aget_aset_self]
  · intro x inode name h
    simp [GetXattrM, h, errno]
  · intro x inode name
    cases h : aget x (inode, name) with
    | none => simp [GetXattrM, RemoveXattrM, h, aget_adel_self, errno]
    | some v => simp [GetXattrM, RemoveXattrM, h, aget_adel_self, errno]

/-- Witness for claim C9 at a concrete store. -/
theorem xattr_set_get_roundtrip_witness :
    GetXattrM (SetXattrM [] 9 "user.k" [1, 2, 3]) 9 "user.k" = (0, some [1, 2, 3]) ∧
    GetXattrM [] 9 "user.k" = (ENOATTR, none) ∧
    GetXattrM (RemoveXattrM (SetXattrM [] 9 "user.k" [1, 2, 3]) 9 "user.k").2 9 "user.k" =
      (ENOATTR, none) := by
  have h := xattr_set_get_roundtrip
  exact ⟨h.1 [] 9 "user.k" [1, 2, 3], h.2.1 [] 9 "user.k" rfl,
    h.2.2 (SetXattrM [] 9 "user.k" [1, 2, 3]) 9 "user.k"⟩

theorem and_mask_sub (a m n : Nat) (hmn : m &&& n = n) (h : a &&& m = 0) : a &&& n = 0 := by
  have h1 : a &&& n = a &&& m &&& n := by
    rw [Nat.and_assoc, hmn]
  rw [h1, h, Nat.zero_and]

theorem and_and_zero (x m n : Nat) (h : m &&& n = 0) : x &&& m &&& n = 0 := by
  rw [Nat.and_assoc, h, Nat.and_zero]

/-- Claim C4 counterexample: with a root caller (uid 0), SetAttr changing
the owner of a file whose mode carries the setuid bit still clears the
setuid/setgid bits; the code has no root exemption on owner or group
change. -/
theorem setattr_root_owner_change_clears_sugid :
    (SetAttrM SetAttrUID 0 0
      { attr0 with typ := TypeFile, mode := 0o4755, uid := 1000, gid := 1000 }
      { attr0 with uid := 2000 } (0, 0)).mode = 0o755 ∧
    (0o4755 : Nat) &&& 0o6000 ≠ 0 ∧ (0o755 : Nat) &&& 0o6000 = 0 := by decide

theorem and3_zero (x a b n : Nat) (h : a &&& b &&& n = 0) : x &&& a &&& b &&& n = 0 := by
  rw [Nat.and_assoc x a b, Nat.and_assoc x (a &&& b) n, h, Nat.and_zero]

theorem and_swap_zero (a m n : Nat) (h : a &&& n = 0) : a &&& m &&& n = 0 := by
  rw [Nat.and_assoc, Nat.and_comm m n, ← Nat.and_assoc, h, Nat.zero_and]

theorem setAttrTimes_mode (set : Nat) (attrIn : Attr) (now : Int × Nat) (cur : Attr) :
    (setAttrTimes set attrIn now cur).mode = cur.mode := by
  simp only [setAttrTimes]
  split_ifs <;> rfl

theorem setAttrUid_mode (set : Nat) (cur attr : Attr) :
    (setAttrUid set cur attr).mode = cur.mode := by
  simp only [setAttrUid]
  split_ifs <;> rfl

theorem setAttrGid_mode (set : Nat) (cur attr : Attr) :
    (setAttrGid set cur attr).mode = cur.mode := by
  simp only [setAttrGid]
  split_ifs <;> rfl

theorem setAttrApplyMode_mode (set : Nat) (cur attr : Attr) :
    (setAttrApplyMode set cur attr).mode =
      if set &&& SetAttrMode ≠ 0 then attr.mode else cur.mode := by
  simp only [setAttrApplyMode]
  split_ifs <;> rfl

/-- Claim C4 (amended): SetAttr clears the setuid/setgid bits on owner or
group change regardless of the caller identity (the source has no root
exemption there), and on a pure chmod with the setgid bit requested it
clears the setgid bit exactly when the caller is not root and the caller
gid differs from the file gid, while a root chmod stores the requested mode
unchanged. -/
theorem setattr_sugid_clearing (set ctxUid ctxGid : Nat) (cur attrIn : Attr) (now : Int × Nat) :
    ((set &&& (SetAttrUID ||| SetAttrGID)) ≠ 0 → (cur.mode &&& 0o6000) ≠ 0 →
      (SetAttrM set ctxUid ctxGid cur attrIn now).mode &&& 0o6000 = 0) ∧
    ((set &&& (SetAttrUID ||| SetAttrGID)) = 0 → (set &&& SetAttrMode) ≠ 0 → ctxUid ≠ 0 →
      ctxGid ≠ cur.gid → (attrIn.mode &&& 0o2000) ≠ 0 →
      (SetAttrM set ctxUid ctxGid cur attrIn now).mode = attrIn.mode &&& 0o5777) ∧
    ((set &&& (SetAttrUID ||| SetAttrGID)) = 0 → (set &&& SetAttrMode) ≠ 0 → ctxUid = 0 →
      (SetAttrM set ctxUid ctxGid cur attrIn now).mode = attrIn.mode) := by
  refine ⟨?_, ?_, ?_⟩
  · intro hug hbits
    simp only [SetAttrM]
    rw [setAttrTimes_mode, setAttrApplyMode_mode]
    have hclear : setAttrClear set cur (setAttrInject set cur attrIn) =
        ({ cur with mode := cur.mode &&& 0o1777 },
          { setAttrInject set cur attrIn with
            mode := (setAttrInject set cur attrIn).mode &&& 0o1777 }) := by
      rw [setAttrClear, if_pos ⟨hbits, hug⟩]
    by_cases h6 : set &&& SetAttrMode ≠ 0
    · rw [if_pos h6]
      have hp2 : (setAttrClear set cur (setAttrInject set cur attrIn)).2.mode &&& 0o6000 = 0 := by
        rw [hclear]
        exact and_and_zero _ _ _ (by decide)
      rw [setAttrChmodClear]
      split_ifs with hc
      · simp only []
        exact and_swap_zero _ _ _ hp2
      · exact hp2
    · rw [if_neg h6, setAttrGid_mode, setAttrUid_mode, hclear]
      exact and_and_zero _ _ _ (by decide)
  · intro hug h6 hUid hGid hbit
    have hU : set &&& SetAttrUID = 0 :=
      and_mask_sub set (SetAttrUID ||| SetAttrGID) SetAttrUID (by decide) hug
    have hG : set &&& SetAttrGID = 0 :=
      and_mask_sub set (SetAttrUID ||| SetAttrGID) SetAttrGID (by decide) hug
    have hinj : setAttrInject set cur attrIn = attrIn := by
      rw [setAttrInject, if_neg]
      intro h
      exact h.1 hug
    have hclear : setAttrClear set cur attrIn = (cur, attrIn) := by
      rw [setAttrClear, if_neg]
      intro h
      exact h.2 hug
    have huid : setAttrUid set cur attrIn = cur := by
      rw [setAttrUid, if_neg]
      exact fun h => h hU
    have hgid : setAttrGid set cur attrIn = cur := by
      rw [setAttrGid, if_neg]
      exact fun h => h hG
    simp only [SetAttrM]
    rw [setAttrTimes_mode, setAttrApplyMode_mode, if_pos h6, hinj, hclear]
    simp only []
    rw [huid, hgid, setAttrChmodClear, if_pos ⟨h6, hUid, hbit, hGid⟩]
  · intro hug h6 hUid
    have hU : set &&& SetAttrUID = 0 :=
      and_mask_sub set (SetAttrUID ||| SetAttrGID) SetAttrUID (by decide) hug
    have hG : set &&& SetAttrGID = 0 :=
      and_mask_sub set (SetAttrUID ||| SetAttrGID) SetAttrGID (by decide) hug
    have hinj : setAttrInject set cur attrIn = attrIn := by
      rw [setAttrInject, if_neg]
      intro h
      exact h.1 hug
    have hclear : setAttrClear set cur attrIn = (cur, attrIn) := by
      rw [setAttrClear, if_neg]
      intro h
      exact h.2 hug
    have huid : setAttrUid set cur attrIn = cur := by
      rw [setAttrUid, if_neg]
      exact fun h => h hU
    have hgid : setAttrGid set cur attrIn = cur := by
      rw [setAttrGid, if_neg]
      exact fun h => h hG
    simp only [SetAttrM]
    rw [setAttrTimes_mode, setAttrApplyMode_mode, if_pos h6, hinj, hclear]
    simp only []
    rw [huid, hgid, setAttrChmodClear, if_neg]
    intro h
    exact h.2.1 hUid

/-- Witness for claim C4 (amended) at concrete inputs: owner change by root
still clears the bits, and a non-root chmod with foreign gid clears the
setgid bit. -/
theorem setattr_sugid_clearing_witness :
    (SetAttrM SetAttrUID 0 0 { attr0 with mode := 0o4755, gid := 5 }
      { attr0 with uid := 9 } (0, 0)).mode &&& 0o6000 = 0 ∧
    (SetAttrM SetAttrMode 1000 7 { attr0 with gid := 5 }
      { attr0 with mode := 0o2755 } (0, 0)).mode = 0o2755 &&& 0o5777 := by
  refine ⟨?_, ?_⟩
  · exact (setattr_sugid_clearing SetAttrUID 0 0 { attr0 with mode := 0o4755, gid := 5 }
      { attr0 with uid := 9 } (0, 0)).1 (by decide) (by decide)
  · exact (setattr_sugid_clearing SetAttrMode 1000 7 { attr0 with gid := 5 }
      { attr0 with mode := 0o2755 } (0, 0)).2.1 (by decide) (by decide) (by decide)
      (by decide) (by decide)

/-- Claim C2 counterexample: when the commit transaction returns EINVAL (the
in-transaction prefix re-verification failed), no double-check read of the
refcount key is performed, and the compaction is treated as failed (the new
chunk is deleted) even when that key exists. -/
theorem compact_einval_skips_double_check :
    (compactChunkFinish EINVAL GoErr.ok).doubleChecked = false ∧
    (compactChunkFinish EINVAL GoErr.ok).newSliceDeleted = true ∧
    (compactChunkFinish EINVAL GoErr.ok).supersededCleanup = false ∧
    EINVAL ≠ 0 := by decide

/-- Claim C2 (amended): the double-check runs exactly when the commit
transaction returns an error other than EINVAL: the refcount key of the new
chunk id is read; if it exists the compaction is treated as successful
(superseded slices are cleaned up), if it is absent the compaction is
treated as failed and the new chunk is deleted. On EINVAL itself the new
chunk is deleted without a double-check. -/
theorem compact_double_check_non_einval (en : Nat) (keyStatus : GoErr) :
    (en ≠ 0 → en ≠ EINVAL →
      (compactChunkFinish en keyStatus).doubleChecked = true ∧
      (keyStatus = GoErr.ok →
        (compactChunkFinish en keyStatus).finalErrno = 0 ∧
        (compactChunkFinish en keyStatus).supersededCleanup = true ∧
        (compactChunkFinish en keyStatus).newSliceDeleted = false) ∧
      (keyStatus = GoErr.redisNil →
        (compactChunkFinish en keyStatus).finalErrno = EINVAL ∧
        (compactChunkFinish en keyStatus).newSliceDeleted = true ∧
        (compactChunkFinish en keyStatus).supersededCleanup = false)) ∧
    ((compactChunkFinish EINVAL keyStatus).doubleChecked = false ∧
      (compactChunkFinish EINVAL keyStatus).newSliceDeleted = true ∧
      (compactChunkFinish EINVAL keyStatus).finalErrno = EINVAL) := by
  constructor
  · intro h0 hE
    have hcond : en ≠ 0 ∧ en ≠ EINVAL := ⟨h0, hE⟩
    constructor
    · simp [compactChunkFinish, hcond]
    · have hE22 : en ≠ 22 := by
        simpa [EINVAL] using hE
      constructor
      · intro hk
        subst hk
        simp [compactChunkFinish, hcond, EINVAL, hE22]
      · intro hk
        subst hk
        simp [compactChunkFinish, hcond, EINVAL, hE22]
  · have : ¬ (EINVAL ≠ 0 ∧ EINVAL ≠ EINVAL) := by simp
    simp [compactChunkFinish, this]

/-- Witness for claim C2 (amended) at concrete errors: a transport error
with the key present, a transport error with the key absent, and EINVAL. -/
theorem compact_double_check_non_einval_witness :
    (compactChunkFinish EIO GoErr.ok).doubleChecked = true ∧
    (compactChunkFinish EIO GoErr.ok).supersededCleanup = true ∧
    (compactChunkFinish EIO GoErr.redisNil).newSliceDeleted = true ∧
    (compactChunkFinish EINVAL GoErr.other).doubleChecked = false := by
  have h := compact_double_check_non_einval EIO GoErr.ok
  have h2 := compact_double_check_non_einval EIO GoErr.redisNil
  have h3 := compact_double_check_non_einval 0 GoErr.other
  refine ⟨(h.1 (by decide) (by decide)).1, ((h.1 (by decide) (by decide)).2.1 rfl).2.1,
    ((h2.1 (by decide) (by decide)).2.2 rfl).2.1, h3.2.1⟩

/-- Claim C3 (code bug exhibited): from a root directory holding the two
empty subdirectories a (inode 2) and b (inode 3) the nlink invariant holds;
the same-parent rename of a onto b commits, yet afterwards the root records
nlink 4 while exactly one subdirectory entry remains, violating
nlink = 2 + number of subdirectories. The decrement for the replaced
directory b is applied to a scratch copy of the destination parent
attribute, which the pipeline writes back only when the two parents differ
(redis.go lines 1280-1282 and 1302-1304). -/
theorem rename_same_parent_breaks_dir_nlink :
    dirNlinkOK fsAB = true ∧
    fsRenamed.toOption.map dirNlinkOK = some false ∧
    (fsRenamed.toOption.bind fun f => aget f.inodes 1).map Attr.nlink = some 4 ∧
    fsRenamed.toOption.map (fun f => dirChildCount f 1) = some 1 := by decide

theorem aget_aset_ne {α β : Type} [DecidableEq α] (l : List (α × β)) (k j : α) (v : β)
    (h : k ≠ j) : aget (aset l k v) j = aget l j := by
  induction l with
  | nil => simp [aset, aget, h]
  | cons p rest ih =>
    obtain ⟨q, w⟩ := p
    by_cases hq : q = k
    · subst hq
      simp [aset, aget, h, ih]
    · simp only [aset, if_neg hq]
      by_cases hj : q = j
      · simp [aget, hj]
      · simp [aget, hj, ih]

theorem aget_none_not_mem_keys {α β : Type} [DecidableEq α] (l : List (α × β)) (k : α)
    (h : aget l k = none) : k ∉ l.map Prod.fst := by
  induction l with
  | nil => simp
  | cons p rest ih =>
    obtain ⟨q, w⟩ := p
    by_cases hq : q = k
    · simp [aget, hq] at h
    · simp only [aget, if_neg hq] at h
      simp only [List.map_cons, List.mem_cons]
      rintro (rfl | hmem)
      · exact hq rfl
      · exact ih h hmem

theorem aget_some_mem_keys {α β : Type} [DecidableEq α] (l : List (α × β)) (k : α) (v : β)
    (h : aget l k = some v) : k ∈ l.map Prod.fst := by
  induction l with
  | nil => simp [aget] at h
  | cons p rest ih =>
    obtain ⟨q, w⟩ := p
    by_cases hq : q = k
    · simp [hq]
    · simp only [aget, if_neg hq] at h
      simp only [List.map_cons, List.mem_cons]
      exact Or.inr (ih h)

theorem rpushL_self (logs : ChunkLogs) (i : Nat) (rec : MSlice) :
    aget (rpushL logs i rec) i = some ((aget logs i).getD [] ++ [rec]) := by
  cases h : aget logs i with
  | none => simp [rpushL, h, aget_aset_self]
  | some l => simp [rpushL, h, aget_aset_self]

theorem rpushL_ne (logs : ChunkLogs) (i j : Nat) (rec : MSlice) (h : i ≠ j) :
    aget (rpushL logs i rec) j = aget logs j := by
  cases hg : aget logs i with
  | none => simp [rpushL, hg, aget_aset_ne _ _ _ _ h]
  | some l => simp [rpushL, hg, aget_aset_ne _ _ _ _ h]

theorem rpushxL_self (logs : ChunkLogs) (i : Nat) (rec : MSlice) :
    aget (rpushxL logs i rec) i = (aget logs i).map (fun l => l ++ [rec]) := by
  cases h : aget logs i with
  | none => simp [rpushxL, h]
  | some l => simp [rpushxL, h, aget_aset_self]

theorem rpushxL_ne (logs : ChunkLogs) (i j : Nat) (rec : MSlice) (h : i ≠ j) :
    aget (rpushxL logs i rec) j = aget logs j := by
  cases hg : aget logs i with
  | none => simp [rpushxL, hg]
  | some l => simp [rpushxL, hg, aget_aset_ne _ _ _ _ h]

theorem foldl_rpushx_not_mem (zc : List Nat) (rec : MSlice) :
    ∀ (logs : ChunkLogs) (j : Nat), j ∉ zc →
      aget (List.foldl (fun lg i => rpushxL lg i rec) logs zc) j = aget logs j := by
  induction zc with
  | nil => intro logs j _; rfl
  | cons a rest ih =>
    intro logs j hj
    simp only [List.mem_cons, not_or] at hj
    simp only [List.foldl_cons]
    rw [ih _ j hj.2, rpushxL_ne _ _ _ _ (fun h => hj.1 h.symm)]

theorem foldl_rpushx_none (zc : List Nat) (rec : MSlice) :
    ∀ (logs : ChunkLogs) (j : Nat), aget logs j = none →
      aget (List.foldl (fun lg i => rpushxL lg i rec) logs zc) j = none := by
  induction zc with
  | nil => intro logs j h; exact h
  | cons a rest ih =>
    intro logs j h
    simp only [List.foldl_cons]
    apply ih
    by_cases ha : a = j
    · subst ha
      rw [rpushxL_self, h]
      rfl
    · rw [rpushxL_ne _ _ _ _ ha, h]

theorem foldl_rpushx_mem (zc : List Nat) (rec : MSlice) :
    ∀ (logs : ChunkLogs) (j : Nat) (l : List MSlice), zc.Nodup → j ∈ zc →
      aget logs j = some l →
      aget (List.foldl (fun lg i => rpushxL lg i rec) logs zc) j = some (l ++ [rec]) := by
  induction zc with
  | nil => intro _ j _ _ hj; simp at hj
  | cons a rest ih =>
    intro logs j l hnd hj hg
    simp only [List.foldl_cons]
    rcases List.mem_cons.mp hj with rfl | hmem
    · have hnot : j ∉ rest := (List.nodup_cons.mp hnd).1
      rw [foldl_rpushx_not_mem rest rec _ j hnot, rpushxL_self, hg]
      rfl
    · have ha : a ≠ j := by
        rintro rfl
        exact (List.nodup_cons.mp hnd).1 hmem
      apply ih _ j l (List.nodup_cons.mp hnd).2 hmem
      rw [rpushxL_ne _ _ _ _ ha, hg]

theorem zeroChunksOf_mem (cs old length : Nat) (logs : ChunkLogs) :
    ∀ i ∈ zeroChunksOf cs old length logs, old / cs < i ∧ i < length / cs := by
  intro i hi
  simp only [zeroChunksOf] at hi
  split_ifs at hi with h
  · have := List.of_mem_filter hi
    simpa using this
  · rcases List.mem_range'_1.mp hi with ⟨ha, hb⟩
    omega

theorem zeroChunksOf_nodup (cs old length : Nat) (logs : ChunkLogs)
    (hwf : (logs.map Prod.fst).Nodup) : (zeroChunksOf cs old length logs).Nodup := by
  simp only [zeroChunksOf]
  split_ifs with h
  · exact hwf.filter _
  · apply List.nodup_range'
    decide

theorem zeroChunksOf_mem_of_mid (cs old length : Nat) (logs : ChunkLogs) (i : Nat)
    (h1 : old / cs < i) (h2 : i < length / cs) (hkey : i ∈ logs.map Prod.fst) :
    i ∈ zeroChunksOf cs old length logs := by
  simp only [zeroChunksOf]
  split_ifs with h
  · refine List.mem_filter.mpr ⟨hkey, ?_⟩
    simpa using And.intro h1 h2
  · exact List.mem_range'_1.mpr ⟨by omega, by omega⟩

/-- Claim C5: a growing Truncate appends a hole record to the first affected
chunk (reaching the chunk end, or the new length when it stays within that
chunk), uses RPUSHX for every strictly intermediate chunk so that only
already-existing middle chunk logs receive a full-chunk hole and no empty
middle chunk is materialised, appends a tail hole of length length mod cs to
the last chunk exactly when the new length passes the first chunk boundary
and is not chunk-aligned, and changes usedSpace by align4K of the new length
minus align4K of the old; concretely, growing an empty file to 10 MiB with a
4 MiB chunk size yields chunk 0 with one 4 MiB zero slice, chunk 2 with one
2 MiB zero slice, and no log for chunk 1. -/
theorem truncate_grow_holes (cs old length : Nat) (logs : ChunkLogs)
    (hcs : 0 < cs) (hgrow : old < length) (hwf : (logs.map Prod.fst).Nodup) :
    (aget (TruncateM cs old length logs).logs (old / cs) =
      some ((aget logs (old / cs)).getD [] ++
        [holeRec (old % cs)
          (if (old / cs + 1) * cs < length then cs - old % cs else length - old)])) ∧
    (∀ i, old / cs < i → i < length / cs →
      (aget logs i = none → aget (TruncateM cs old length logs).logs i = none) ∧
      (∀ l, aget logs i = some l →
        aget (TruncateM cs old length logs).logs i = some (l ++ [holeRec 0 cs]))) ∧
    ((old / cs + 1) * cs < length → 0 < length % cs →
      aget (TruncateM cs old length logs).logs (length / cs) =
        some ((aget logs (length / cs)).getD [] ++ [holeRec 0 (length % cs)])) ∧
    (TruncateM cs old length logs).delta = align4K length - align4K old ∧
    (TruncateM 4194304 0 10485760 []).logs =
      [(0, [holeRec 0 4194304]), (2, [holeRec 0 2097152])] ∧
    aget (TruncateM 4194304 0 10485760 []).logs 1 = none := by
  have hfirstmid : ∀ i ∈ zeroChunksOf cs old length logs, old / cs ≠ i := by
    intro i hi
    exact Nat.ne_of_lt (zeroChunksOf_mem cs old length logs i hi).1
  refine ⟨?_, ?_, ?_, ?_, by decide, by decide⟩
  · simp only [TruncateM, if_pos hgrow]
    by_cases htail : (old / cs + 1) * cs < length ∧ 0 < length % cs
    · rw [if_pos htail]
      have hne : length / cs ≠ old / cs := by
        have : old / cs + 1 ≤ length / cs := by
          have := Nat.div_mul_le_self length cs
          have h2 : (old / cs + 1) * cs ≤ length := Nat.le_of_lt htail.1
          have := (Nat.le_div_iff_mul_le hcs).mpr h2
          omega
        omega
      rw [rpushL_ne _ _ _ _ hne]
      rw [foldl_rpushx_not_mem _ _ _ _ ?hnm]
      case hnm =>
        intro hmem
        exact hfirstmid _ hmem rfl
      exact rpushL_self logs (old / cs) _
    · rw [if_neg htail]
      rw [foldl_rpushx_not_mem _ _ _ _ ?hnm2]
      case hnm2 =>
        intro hmem
        exact hfirstmid _ hmem rfl
      exact rpushL_self logs (old / cs) _
  · intro i h1 h2
    have hnei : old / cs ≠ i := Nat.ne_of_lt h1
    have hnet : length / cs ≠ i := Nat.ne_of_gt h2
    constructor
    · intro hnone
      simp only [TruncateM, if_pos hgrow]
      have hstep1 : aget (rpushL logs (old / cs) (holeRec (old % cs)
          (if (old / cs + 1) * cs < length then cs - old % cs else length - old))) i = none := by
        rw [rpushL_ne _ _ _ _ hnei, hnone]
      by_cases htail : (old / cs + 1) * cs < length ∧ 0 < length % cs
      · rw [if_pos htail, rpushL_ne _ _ _ _ hnet]
        exact foldl_rpushx_none _ _ _ _ hstep1
      · rw [if_neg htail]
        exact foldl_rpushx_none _ _ _ _ hstep1
    · intro l hsome
      simp only [TruncateM, if_pos hgrow]
      have hkey : i ∈ logs.map Prod.fst := aget_some_mem_keys logs i l hsome
      have hmem : i ∈ zeroChunksOf cs old length logs :=
        zeroChunksOf_mem_of_mid cs old length logs i h1 h2 hkey
      have hstep1 : aget (rpushL logs (old / cs) (holeRec (old % cs)
          (if (old / cs + 1) * cs < length then cs - old % cs else length - old))) i = some l := by
        rw [rpushL_ne _ _ _ _ hnei, hsome]
      by_cases htail : (old / cs + 1) * cs < length ∧ 0 < length % cs
      · rw [if_pos htail, rpushL_ne _ _ _ _ hnet]
        exact foldl_rpushx_mem _ _ _ i l (zeroChunksOf_nodup cs old length logs hwf) hmem hstep1
      · rw [if_neg htail]
        exact foldl_rpushx_mem _ _ _ i l (zeroChunksOf_nodup cs old length logs hwf) hmem hstep1
  · intro hpast hmod
    simp only [TruncateM, if_pos hgrow]
    rw [if_pos ⟨hpast, hmod⟩]
    have hne : old / cs ≠ length / cs := by
      have : old / cs + 1 ≤ length / cs := by
        have h2 : (old / cs + 1) * cs ≤ length := Nat.le_of_lt hpast
        have := (Nat.le_div_iff_mul_le hcs).mpr h2
        omega
      omega
    have hmid : length / cs ∉ zeroChunksOf cs old length logs := by
      intro hmem
      exact absurd (zeroChunksOf_mem cs old length logs _ hmem).2 (lt_irrefl _)
    rw [rpushL_self]
    rw [foldl_rpushx_not_mem _ _ _ _ hmid, rpushL_ne _ _ _ _ hne]
  · simp only [TruncateM]
    split_ifs <;> rfl

/-- Witness for claim C5 at the concrete 10 MiB grow of an empty file with a
4 MiB chunk size. -/
theorem truncate_grow_holes_witness :
    (TruncateM 4194304 0 10485760 []).delta = align4K 10485760 - align4K 0 ∧
    aget (TruncateM 4194304 0 10485760 []).logs 1 = none := by
  have h := truncate_grow_holes 4194304 0 10485760 [] (by decide) (by decide) (by decide)
  exact ⟨h.2.2.2.1, h.2.2.2.2.2⟩

theorem cutList_nil (q : Nat) : cutList [] q = ([], []) := rfl

theorem cutList_cons_below (s : MSlice) (rest : List MSlice) (q : Nat)
    (h : s.pos + s.len ≤ q) :
    cutList (s :: rest) q = (s :: (cutList rest q).1, (cutList rest q).2) := by
  simp [cutList, h]

theorem cutList_cons_right (s : MSlice) (rest : List MSlice) (q : Nat)
    (h1 : ¬ s.pos + s.len ≤ q) (h2 : q ≤ s.pos) :
    cutList (s :: rest) q = ([], s :: rest) := by
  simp [cutList, h1, h2]

theorem cutList_cons_split (s : MSlice) (rest : List MSlice) (q : Nat)
    (h1 : ¬ s.pos + s.len ≤ q) (h2 : ¬ q ≤ s.pos) :
    cutList (s :: rest) q =
      ([{ s with len := q - s.pos }],
        { s with pos := q, off := s.off + (q - s.pos), len := s.len - (q - s.pos) } :: rest) := by
  simp [cutList, h1, h2]

theorem chain_cons (p : Nat) (s : MSlice) (rest : List MSlice) :
    Chain p (s :: rest) ↔ p ≤ s.pos ∧ 0 < s.len ∧ Chain (s.pos + s.len) rest := Iff.rfl

theorem chain_mono (l : List MSlice) : ∀ p q, q ≤ p → Chain p l → Chain q l := by
  cases l with
  | nil => intro p q _ _; trivial
  | cons s rest =>
    intro p q hqp hch
    exact ⟨Nat.le_trans hqp hch.1, hch.2.1, hch.2.2⟩

theorem chain_pos_le (l : List MSlice) : ∀ p, Chain p l → ∀ s ∈ l, p ≤ s.pos := by
  induction l with
  | nil => intro p _ s hs; simp at hs
  | cons a rest ih =>
    intro p hch s hs
    rcases List.mem_cons.mp hs with rfl | hmem
    · exact hch.1
    · have h1 := hch.1
      have := ih (a.pos + a.len) hch.2.2 s hmem
      omega

theorem endFrom_ge_chain (l : List MSlice) : ∀ p, Chain p l → p ≤ endFrom p l := by
  induction l with
  | nil => intro p _; exact Nat.le_refl p
  | cons s rest ih =>
    intro p hch
    have h1 := hch.1
    have := ih (s.pos + s.len) hch.2.2
    simp only [endFrom]
    omega

theorem endFrom_indep (l : List MSlice) (h : l ≠ []) (p q : Nat) :
    endFrom p l = endFrom q l := by
  cases l with
  | nil => exact absurd rfl h
  | cons s rest => rfl

theorem endFrom_append (a : List MSlice) : ∀ (b : List MSlice) (p : Nat),
    endFrom p (a ++ b) = endFrom (endFrom p a) b := by
  induction a with
  | nil => intro b p; rfl
  | cons s rest ih =>
    intro b p
    simp only [List.cons_append, endFrom]
    exact ih b (s.pos + s.len)

theorem cutList_left_chain (l : List MSlice) : ∀ p q, Chain p l → Chain p (cutList l q).1 := by
  induction l with
  | nil => intro p q _; trivial
  | cons s rest ih =>
    intro p q hch
    by_cases h1 : s.pos + s.len ≤ q
    · rw [cutList_cons_below s rest q h1]
      exact ⟨hch.1, hch.2.1, ih (s.pos + s.len) q hch.2.2⟩
    · by_cases h2 : q ≤ s.pos
      · rw [cutList_cons_right s rest q h1 h2]
        trivial
      · rw [cutList_cons_split s rest q h1 h2]
        exact ⟨hch.1, by simp; omega, trivial⟩

theorem cutList_left_below (l : List MSlice) : ∀ p q, Chain p l →
    ∀ s ∈ (cutList l q).1, s.pos + s.len ≤ q := by
  induction l with
  | nil => intro p q _ s hs; simp [cutList_nil] at hs
  | cons s rest ih =>
    intro p q hch t ht
    by_cases h1 : s.pos + s.len ≤ q
    · rw [cutList_cons_below s rest q h1] at ht
      rcases List.mem_cons.mp ht with rfl | hmem
      · exact h1
      · exact ih (s.pos + s.len) q hch.2.2 t hmem
    · by_cases h2 : q ≤ s.pos
      · rw [cutList_cons_right s rest q h1 h2] at ht
        simp at ht
      · rw [cutList_cons_split s rest q h1 h2] at ht
        simp at ht
        subst ht
        simp
        omega

theorem cutList_right_chain (l : List MSlice) : ∀ p q, Chain p l →
    Chain q (cutList l q).2 := by
  induction l with
  | nil => intro p q _; trivial
  | cons s rest ih =>
    intro p q hch
    by_cases h1 : s.pos + s.len ≤ q
    · rw [cutList_cons_below s rest q h1]
      exact ih (s.pos + s.len) q hch.2.2
    · by_cases h2 : q ≤ s.pos
      · rw [cutList_cons_right s rest q h1 h2]
        exact ⟨h2, hch.2.1, hch.2.2⟩
      · rw [cutList_cons_split s rest q h1 h2]
        refine ⟨by simp, by simp; omega, ?_⟩
        have heq : q + (s.len - (q - s.pos)) = s.pos + s.len := by omega
        simp only [heq]
        exact hch.2.2

theorem logAtF_nil (acc : BSrc) (x : Nat) : logAtF acc [] x = acc := rfl

theorem logAtF_cons (acc : BSrc) (s : MSlice) (t : List MSlice) (x : Nat) :
    logAtF acc (s :: t) x = logAtF ((sliceAt s x).getD acc) t x := rfl

theorem logAtF_append (acc : BSrc) (a b : List MSlice) (x : Nat) :
    logAtF acc (a ++ b) x = logAtF (logAtF acc a x) b x := by
  simp [logAtF, List.foldl_append]

theorem sliceAt_none_of_lt (s : MSlice) (x : Nat) (h : x < s.pos) : sliceAt s x = none := by
  simp only [sliceAt]
  rw [if_neg]
  omega

theorem sliceAt_none_of_ge (s : MSlice) (x : Nat) (h : s.pos + s.len ≤ x) :
    sliceAt s x = none := by
  simp only [sliceAt]
  rw [if_neg]
  omega

theorem logAtF_none (l : List MSlice) (x : Nat) (h : ∀ s ∈ l, sliceAt s x = none) :
    ∀ acc, logAtF acc l x = acc := by
  induction l with
  | nil => intro acc; rfl
  | cons s rest ih =>
    intro acc
    rw [logAtF_cons, h s (List.mem_cons_self s rest)]
    exact ih (fun t ht => h t (List.mem_cons_of_mem s ht)) acc

theorem sliceAt_left_piece (s : MSlice) (q x : Nat) (h1 : q < s.pos + s.len) (hx : x < q) :
    sliceAt { s with len := q - s.pos } x = sliceAt s x := by
  simp only [sliceAt]
  by_cases hp : s.pos ≤ x
  · rw [if_pos (show s.pos ≤ x ∧ x < s.pos + (q - s.pos) from ⟨hp, by omega⟩),
      if_pos (show s.pos ≤ x ∧ x < s.pos + s.len from ⟨hp, by omega⟩)]
  · rw [if_neg (show ¬ (s.pos ≤ x ∧ x < s.pos + (q - s.pos)) from by omega),
      if_neg (show ¬ (s.pos ≤ x ∧ x < s.pos + s.len) from by omega)]

theorem sliceAt_right_piece (s : MSlice) (q x : Nat) (hlo : s.pos < q) (hx : q ≤ x) :
    sliceAt { s with pos := q, off := s.off + (q - s.pos), len := s.len - (q - s.pos) } x =
      sliceAt s x := by
  simp only [sliceAt]
  by_cases hcov : x < s.pos + s.len
  · rw [if_pos (show q ≤ x ∧ x < q + (s.len - (q - s.pos)) from ⟨hx, by omega⟩),
      if_pos (show s.pos ≤ x ∧ x < s.pos + s.len from ⟨by omega, hcov⟩)]
    have harg : s.off + (q - s.pos) + (x - q) = s.off + (x - s.pos) := by omega
    rw [harg]
  · rw [if_neg (show ¬ (q ≤ x ∧ x < q + (s.len - (q - s.pos))) from by omega),
      if_neg (show ¬ (s.pos ≤ x ∧ x < s.pos + s.len) from by omega)]

theorem cutList_left_at (l : List MSlice) : ∀ p q x acc, Chain p l → x < q →
    logAtF acc (cutList l q).1 x = logAtF acc l x := by
  induction l with
  | nil => intro p q x acc _ _; rfl
  | cons s rest ih =>
    intro p q x acc hch hx
    by_cases h1 : s.pos + s.len ≤ q
    · rw [cutList_cons_below s rest q h1]
      simp only []
      rw [logAtF_cons, logAtF_cons]
      exact ih (s.pos + s.len) q x _ hch.2.2 hx
    · by_cases h2 : q ≤ s.pos
      · rw [cutList_cons_right s rest q h1 h2]
        simp only []
        rw [logAtF_nil]
        have hall : ∀ t ∈ s :: rest, sliceAt t x = none := by
          intro t ht
          have hchS : Chain s.pos (s :: rest) := ⟨Nat.le_refl _, hch.2.1, hch.2.2⟩
          have := chain_pos_le (s :: rest) s.pos hchS t ht
          exact sliceAt_none_of_lt t x (by omega)
        exact (logAtF_none (s :: rest) x hall acc).symm
      · rw [cutList_cons_split s rest q h1 h2]
        simp only []
        rw [logAtF_cons, logAtF_nil, sliceAt_left_piece s q x (by omega) hx]
        rw [logAtF_cons]
        have hall : ∀ t ∈ rest, sliceAt t x = none := by
          intro t ht
          have := chain_pos_le rest (s.pos + s.len) hch.2.2 t ht
          exact sliceAt_none_of_lt t x (by omega)
        exact (logAtF_none rest x hall _).symm

theorem cutList_right_at (l : List MSlice) : ∀ p q x acc, Chain p l → q ≤ x →
    logAtF acc (cutList l q).2 x = logAtF acc l x := by
  induction l with
  | nil => intro p q x acc _ _; rfl
  | cons s rest ih =>
    intro p q x acc hch hx
    by_cases h1 : s.pos + s.len ≤ q
    · rw [cutList_cons_below s rest q h1]
      simp only []
      rw [logAtF_cons, sliceAt_none_of_ge s x (by omega)]
      exact ih (s.pos + s.len) q x acc hch.2.2 hx
    · by_cases h2 : q ≤ s.pos
      · rw [cutList_cons_right s rest q h1 h2]
      · rw [cutList_cons_split s rest q h1 h2]
        simp only []
        rw [logAtF_cons, logAtF_cons, sliceAt_right_piece s q x (by omega) hx]

theorem cutList_right_end (l : List MSlice) : ∀ p q, Chain p l →
    endFrom q (cutList l q).2 = max q (endFrom q l) := by
  induction l with
  | nil =>
    intro p q _
    simp [cutList_nil, endFrom]
  | cons s rest ih =>
    intro p q hch
    by_cases h1 : s.pos + s.len ≤ q
    · rw [cutList_cons_below s rest q h1]
      simp only []
      rw [ih (s.pos + s.len) q hch.2.2]
      cases rest with
      | nil => simp [endFrom]; omega
      | cons t ts => simp [endFrom]
    · by_cases h2 : q ≤ s.pos
      · rw [cutList_cons_right s rest q h1 h2]
        simp only []
        have hge := endFrom_ge_chain (s :: rest) q ⟨h2, hch.2.1, hch.2.2⟩
        omega
      · rw [cutList_cons_split s rest q h1 h2]
        simp only [endFrom]
        have heq : q + (s.len - (q - s.pos)) = s.pos + s.len := by omega
        rw [heq]
        have hge := endFrom_ge_chain rest (s.pos + s.len) hch.2.2
        omega

theorem chain_append (a : List MSlice) : ∀ (m : List MSlice) (p q : Nat), Chain p a →
    (∀ s ∈ a, s.pos + s.len ≤ q) → Chain q m → p ≤ q → Chain p (a ++ m) := by
  induction a with
  | nil =>
    intro m p q _ _ hm hpq
    exact chain_mono m q p hpq hm
  | cons s rest ih =>
    intro m p q hch hbelow hm hpq
    refine ⟨hch.1, hch.2.1, ?_⟩
    refine ih m (s.pos + s.len) q hch.2.2 (fun t ht => hbelow t (List.mem_cons_of_mem s ht)) hm ?_
    exact hbelow s (List.mem_cons_self s rest)

theorem insertSlice_chain (root : List MSlice) (s : MSlice) (hch : Chain 0 root)
    (hs : 0 < s.len) : Chain 0 (insertSlice root s) := by
  simp only [insertSlice]
  refine chain_append _ _ 0 s.pos (cutList_left_chain root 0 s.pos hch)
    (cutList_left_below root 0 s.pos hch) ?_ (Nat.zero_le _)
  refine ⟨Nat.le_refl _, hs, ?_⟩
  exact cutList_right_chain (cutList root s.pos).2 s.pos (s.pos + s.len)
    (cutList_right_chain root 0 s.pos hch)

theorem insertSlice_at (root : List MSlice) (s : MSlice) (hch : Chain 0 root) (x : Nat) :
    logAt (insertSlice root s) x = (sliceAt s x).getD (logAt root x) := by
  have hchb1 : Chain s.pos (cutList root s.pos).2 := cutList_right_chain root 0 s.pos hch
  have hchc : Chain (s.pos + s.len) (cutList (cutList root s.pos).2 (s.pos + s.len)).2 :=
    cutList_right_chain (cutList root s.pos).2 s.pos (s.pos + s.len) hchb1
  simp only [insertSlice, logAt]
  rw [logAtF_append, logAtF_cons]
  rcases Nat.lt_or_ge x s.pos with hx1 | hx1
  · have hs : sliceAt s x = none := sliceAt_none_of_lt s x hx1
    rw [hs]
    have hcnone : ∀ t ∈ (cutList (cutList root s.pos).2 (s.pos + s.len)).2,
        sliceAt t x = none := by
      intro t ht
      have := chain_pos_le _ (s.pos + s.len) hchc t ht
      exact sliceAt_none_of_lt t x (by omega)
    rw [logAtF_none _ x hcnone]
    simp only [Option.getD_none]
    exact cutList_left_at root 0 s.pos x BSrc.hole hch hx1
  · rcases Nat.lt_or_ge x (s.pos + s.len) with hx2 | hx2
    · have hcnone : ∀ t ∈ (cutList (cutList root s.pos).2 (s.pos + s.len)).2,
          sliceAt t x = none := by
        intro t ht
        have := chain_pos_le _ (s.pos + s.len) hchc t ht
        exact sliceAt_none_of_lt t x (by omega)
      rw [logAtF_none _ x hcnone]
      have hs : sliceAt s x =
          some (if s.chunkid = 0 then BSrc.hole
            else BSrc.data s.chunkid s.size (s.off + (x - s.pos))) := by
        simp only [sliceAt]
        rw [if_pos ⟨hx1, hx2⟩]
      rw [hs]
      rfl
    · have hs : sliceAt s x = none := sliceAt_none_of_ge s x hx2
      rw [hs]
      simp only [Option.getD_none]
      have hanone : ∀ t ∈ (cutList root s.pos).1, sliceAt t x = none := by
        intro t ht
        have := cutList_left_below root 0 s.pos hch t ht
        exact sliceAt_none_of_ge t x (by omega)
      rw [logAtF_none _ x hanone]
      rw [cutList_right_at (cutList root s.pos).2 s.pos (s.pos + s.len) x BSrc.hole hchb1 hx2]
      exact cutList_right_at root 0 s.pos x BSrc.hole hch (by omega)

theorem insertSlice_end (root : List MSlice) (s : MSlice) (hch : Chain 0 root) :
    endFrom 0 (insertSlice root s) = max (endFrom 0 root) (s.pos + s.len) := by
  have hchb1 : Chain s.pos (cutList root s.pos).2 := cutList_right_chain root 0 s.pos hch
  simp only [insertSlice]
  rw [endFrom_append]
  simp only [endFrom]
  rw [cutList_right_end (cutList root s.pos).2 s.pos (s.pos + s.len) hchb1]
  have hb1 := cutList_right_end root 0 s.pos hch
  by_cases hroot : root = []
  · subst hroot
    simp [cutList_nil, endFrom]
  · have hE : endFrom s.pos root = endFrom 0 root := endFrom_indep root hroot s.pos 0
    rw [hE] at hb1
    cases hb : (cutList root s.pos).2 with
    | nil =>
      rw [hb] at hb1
      simp only [endFrom] at hb1 ⊢
      omega
    | cons t ts =>
      rw [hb] at hb1
      have hind : endFrom (s.pos + s.len) (t :: ts) = endFrom s.pos (t :: ts) := rfl
      rw [hind, hb1]
      omega

theorem logAt_append_single (ss : List MSlice) (w : MSlice) (x : Nat) :
    logAt (ss ++ [w]) x = (sliceAt w x).getD (logAt ss x) := by
  simp only [logAt]
  rw [logAtF_append, logAtF_cons, logAtF_nil]

theorem logEnd_append_single (ss : List MSlice) (w : MSlice) :
    logEnd (ss ++ [w]) = max (logEnd ss) (w.pos + w.len) := by
  simp [logEnd, List.foldl_append]

theorem build_invariant (ss : List MSlice) :
    (∀ s ∈ ss, 0 < s.len) →
    Chain 0 (List.foldl insertSlice [] ss) ∧
    (∀ x, logAt (List.foldl insertSlice [] ss) x = logAt ss x) ∧
    endFrom 0 (List.foldl insertSlice [] ss) = logEnd ss := by
  induction ss using List.reverseRecOn with
  | nil => exact fun _ => ⟨trivial, fun x => rfl, rfl⟩
  | append_singleton ss w ih =>
    intro hlen
    have hws : 0 < w.len := hlen w (by simp)
    have hss : ∀ s ∈ ss, 0 < s.len := fun s hs => hlen s (by simp [hs])
    obtain ⟨hch, hat, hend⟩ := ih hss
    have hfold : List.foldl insertSlice [] (ss ++ [w]) =
        insertSlice (List.foldl insertSlice [] ss) w := by
      simp [List.foldl_append]
    refine ⟨?_, ?_, ?_⟩
    · rw [hfold]
      exact insertSlice_chain _ w hch hws
    · intro x
      rw [hfold, insertSlice_at _ w hch x, hat x, logAt_append_single]
    · rw [hfold, insertSlice_end _ w hch, hend, logEnd_append_single]

theorem outBytes_eq (l : List Slice) : ∀ init,
    List.foldl (fun acc s => acc ++ sliceBytes s) init l = init ++ outBytes l := by
  induction l with
  | nil => intro init; simp [outBytes]
  | cons s rest ih =>
    intro init
    simp only [outBytes, List.foldl_cons, List.nil_append]
    rw [ih (init ++ sliceBytes s), ih (sliceBytes s)]
    simp

theorem outBytes_append (o1 o2 : List Slice) :
    outBytes (o1 ++ o2) = outBytes o1 ++ outBytes o2 := by
  simp only [outBytes, List.foldl_append]
  exact outBytes_eq o2 _

theorem outBytes_single (s : Slice) : outBytes [s] = sliceBytes s := by
  simp [outBytes]

theorem logAt_lt_head (s : MSlice) (rest : List MSlice) (x : Nat)
    (hch : Chain (s.pos + s.len) rest) (hx : x < s.pos) :
    logAt (s :: rest) x = BSrc.hole := by
  have hall : ∀ t ∈ s :: rest, sliceAt t x = none := by
    intro t ht
    rcases List.mem_cons.mp ht with rfl | hmem
    · exact sliceAt_none_of_lt t x hx
    · have := chain_pos_le rest (s.pos + s.len) hch t hmem
      exact sliceAt_none_of_lt t x (by omega)
  exact logAtF_none (s :: rest) x hall BSrc.hole

theorem logAt_in_head (s : MSlice) (rest : List MSlice) (j : Nat)
    (hch : Chain (s.pos + s.len) rest) (hj : j < s.len) :
    logAt (s :: rest) (s.pos + j) =
      (if s.chunkid = 0 then BSrc.hole else BSrc.data s.chunkid s.size (s.off + j)) := by
  simp only [logAt, logAtF_cons]
  have hrest : ∀ t ∈ rest, sliceAt t (s.pos + j) = none := by
    intro t ht
    have := chain_pos_le rest (s.pos + s.len) hch t ht
    exact sliceAt_none_of_lt t (s.pos + j) (by omega)
  rw [logAtF_none rest (s.pos + j) hrest]
  have hs : sliceAt s (s.pos + j) =
      some (if s.chunkid = 0 then BSrc.hole
        else BSrc.data s.chunkid s.size (s.off + (s.pos + j - s.pos))) := by
    simp only [sliceAt]
    rw [if_pos ⟨Nat.le_add_right _ _, by omega⟩]
  rw [hs]
  simp only [Option.getD_some]
  have harg : s.pos + j - s.pos = j := by omega
  rw [harg]

theorem logAt_past_head (s : MSlice) (rest : List MSlice) (x : Nat)
    (hx : s.pos + s.len ≤ x) : logAt (s :: rest) x = logAt rest x := by
  simp only [logAt, logAtF_cons]
  rw [sliceAt_none_of_ge s x hx]
  rfl

theorem emit_spec (l : List MSlice) : ∀ p out, Chain p l →
    outBytes ((List.foldl emitStep (p, out) l).2) =
      outBytes out ++ (List.range (endFrom p l - p)).map (fun j => logAt l (p + j)) := by
  induction l with
  | nil =>
    intro p out _
    simp [endFrom]
  | cons s rest ih =>
    intro p out hch
    have hple : p ≤ s.pos := hch.1
    have hlen : 0 < s.len := hch.2.1
    have hchr : Chain (s.pos + s.len) rest := hch.2.2
    have hEr := endFrom_ge_chain rest (s.pos + s.len) hchr
    have hErest : endFrom p (s :: rest) = endFrom (s.pos + s.len) rest := rfl
    simp only [List.foldl_cons]
    rcases Nat.lt_or_ge p s.pos with hgap | hpe
    · have hstep : emitStep (p, out) s =
          (s.pos + s.len,
            (out ++ [⟨0, s.pos - p, 0, s.pos - p⟩]) ++ [⟨s.chunkid, s.size, s.off, s.len⟩]) := by
        simp only [emitStep]
        rw [if_pos hgap]
      rw [hstep, ih (s.pos + s.len) _ hchr]
      rw [hErest]
      have hsplit : endFrom (s.pos + s.len) rest - p =
          (s.pos - p) + ((s.len) + (endFrom (s.pos + s.len) rest - (s.pos + s.len))) := by
        omega
      rw [hsplit, List.range_add, List.map_append, List.range_add, List.map_append,
        List.map_map, List.map_append, List.map_map, List.map_map]
      rw [outBytes_append, outBytes_append, outBytes_single, outBytes_single]
      have hseg1 : (List.range (s.pos - p)).map (fun j => logAt (s :: rest) (p + j)) =
          sliceBytes ⟨0, s.pos - p, 0, s.pos - p⟩ := by
        simp only [sliceBytes]
        apply List.map_congr_left
        intro j hj
        have hjlt := List.mem_range.mp hj
        rw [logAt_lt_head s rest (p + j) hchr (by omega)]
        simp
      have hseg2 : (List.range s.len).map
            ((fun j => logAt (s :: rest) (p + j)) ∘ (fun x => (s.pos - p) + x)) =
          sliceBytes ⟨s.chunkid, s.size, s.off, s.len⟩ := by
        simp only [sliceBytes]
        apply List.map_congr_left
        intro j hj
        have hjlt := List.mem_range.mp hj
        simp only [Function.comp_apply]
        have harg : p + (s.pos - p + j) = s.pos + j := by omega
        rw [harg, logAt_in_head s rest j hchr hjlt]
      have hseg3 : (List.range (endFrom (s.pos + s.len) rest - (s.pos + s.len))).map
            ((fun j => logAt (s :: rest) (p + j)) ∘
              ((fun x => (s.pos - p) + x) ∘ (fun x => s.len + x))) =
          (List.range (endFrom (s.pos + s.len) rest - (s.pos + s.len))).map
            (fun j => logAt rest (s.pos + s.len + j)) := by
        apply List.map_congr_left
        intro j hj
        simp only [Function.comp_apply]
        have harg : p + (s.pos - p + (s.len + j)) = s.pos + s.len + j := by omega
        rw [harg, logAt_past_head s rest (s.pos + s.len + j) (by omega)]
      rw [hseg1, hseg2, hseg3]
      simp [List.append_assoc]
    · have hps : s.pos = p := Nat.le_antisymm hpe hple
      have hstep : emitStep (p, out) s =
          (s.pos + s.len, out ++ [⟨s.chunkid, s.size, s.off, s.len⟩]) := by
        simp only [emitStep]
        rw [if_neg (by omega), hps]
      rw [hstep, ih (s.pos + s.len) _ hchr]
      rw [hErest]
      have hsplit : endFrom (s.pos + s.len) rest - p =
          s.len + (endFrom (s.pos + s.len) rest - (s.pos + s.len)) := by
        omega
      rw [hsplit, List.range_add, List.map_append, List.map_map]
      rw [outBytes_append, outBytes_single]
      have hseg2 : (List.range s.len).map (fun j => logAt (s :: rest) (p + j)) =
          sliceBytes ⟨s.chunkid, s.size, s.off, s.len⟩ := by
        simp only [sliceBytes]
        apply List.map_congr_left
        intro j hj
        have hjlt := List.mem_range.mp hj
        rw [show p + j = s.pos + j from by omega]
        exact logAt_in_head s rest j hchr hjlt
      have hseg3 : (List.range (endFrom (s.pos + s.len) rest - (s.pos + s.len))).map
            ((fun j => logAt (s :: rest) (p + j)) ∘ (fun x => s.len + x)) =
          (List.range (endFrom (s.pos + s.len) rest - (s.pos + s.len))).map
            (fun j => logAt rest (s.pos + s.len + j)) := by
        apply List.map_congr_left
        intro j hj
        simp only [Function.comp_apply]
        rw [show p + (s.len + j) = s.pos + s.len + j from by omega]
        rw [logAt_past_head s rest (s.pos + s.len + j) (by omega)]
      rw [hseg2, hseg3]
      simp [List.append_assoc]

theorem buildSlice_overlay (ss : List MSlice) (hlen : ∀ s ∈ ss, 0 < s.len) :
    outBytes (buildSliceM ss) = (List.range (logEnd ss)).map (logAt ss) := by
  obtain ⟨hch, hat, hend⟩ := build_invariant ss hlen
  simp only [buildSliceM]
  rw [emit_spec (List.foldl insertSlice [] ss) 0 [] hch]
  rw [Nat.sub_zero] at *
  rw [hend]
  simp only [outBytes, List.foldl_nil, List.nil_append]
  apply List.map_congr_left
  intro x _
  rw [Nat.zero_add]
  exact hat x

/-- C1: slice resolution (buildSlice, used by Read) is the overlay of the
appended slices in append order. First conjunct: for every chunk log of
positive-length records, the byte layout of the emitted slice sequence equals,
position by position up to the highest covered position, the overlay
semantics logAt in which a later-appended slice occludes any overlapping
portion of earlier slices and uncovered positions read as holes; by
construction of outBytes the emitted slices appear in order of in-chunk
position and gaps appear as hole slices (chunk id 0) of exactly the gap
length. Second conjunct: Read after Write(off, slice) yields a byte layout
equal to the overlay of the new slice on the previously visible content. -/
theorem read_write_overlay (ss : List MSlice) (off : Nat) (sl : Slice)
    (hlen : ∀ s ∈ ss, 0 < s.len) (hsl : 0 < sl.len) :
    outBytes (buildSliceM ss) = (List.range (logEnd ss)).map (logAt ss) ∧
    outBytes (ReadM (WriteM ss off sl)) =
      (List.range (logEnd (WriteM ss off sl))).map
        (fun x => (sliceAt (writeRecord off sl) x).getD (logAt ss x)) := by
  refine ⟨buildSlice_overlay ss hlen, ?_⟩
  have hlen2 : ∀ s ∈ WriteM ss off sl, 0 < s.len := by
    intro s hs
    rcases List.mem_append.mp hs with hm | hm
    · exact hlen s hm
    · simp only [List.mem_singleton] at hm
      subst hm
      exact hsl
  rw [show ReadM (WriteM ss off sl) = buildSliceM (WriteM ss off sl) from rfl]
  rw [buildSlice_overlay (WriteM ss off sl) hlen2]
  apply List.map_congr_left
  intro x _
  exact logAt_append_single ss (writeRecord off sl) x

theorem read_write_overlay_witness :
    outBytes (buildSliceM [(⟨0, 5, 10, 0, 5⟩ : MSlice)]) =
      (List.range (logEnd [(⟨0, 5, 10, 0, 5⟩ : MSlice)])).map
        (logAt [(⟨0, 5, 10, 0, 5⟩ : MSlice)]) ∧
    outBytes (ReadM (WriteM [(⟨0, 5, 10, 0, 5⟩ : MSlice)] 2 ⟨7, 8, 1, 4⟩)) =
      (List.range (logEnd (WriteM [(⟨0, 5, 10, 0, 5⟩ : MSlice)] 2 ⟨7, 8, 1, 4⟩))).map
        (fun x => (sliceAt (writeRecord 2 ⟨7, 8, 1, 4⟩) x).getD
          (logAt [(⟨0, 5, 10, 0, 5⟩ : MSlice)] x)) :=
  read_write_overlay [⟨0, 5, 10, 0, 5⟩] 2 ⟨7, 8, 1, 4⟩ (by decide) (by decide)

theorem opOK_not_touches (fout ino : Nat) (op : COp) (h : copyOpOK fout op = true)
    (hino : ino ≠ fout) : opTouches op ino = false := by
  cases op <;> simp [copyOpOK, opTouches] at h ⊢ <;> omega

theorem emitCopySlice_ok (cs fout indx dpos : Nat) (s : Slice) :
    ∀ op ∈ emitCopySlice cs fout indx dpos s, copyOpOK fout op = true := by
  have h : (emitCopySlice cs fout indx dpos s).all (copyOpOK fout) = true := by
    simp only [emitCopySlice]
    split_ifs <;> simp [copyOpOK]
  exact List.all_eq_true.mp h

theorem emitCopySlice_count (cs fout indx dpos : Nat) (s : Slice) :
    List.countP isIncrSlice (emitCopySlice cs fout indx dpos s) =
      List.countP isLivePush (emitCopySlice cs fout indx dpos s) := by
  simp only [emitCopySlice]
  split_ifs <;>
    simp_all [List.countP_cons, List.countP_append, isIncrSlice, isLivePush]

theorem copySliceOps_ok (cs fout offIn offOut size coff pos : Nat) (s : Slice) :
    ∀ op ∈ copySliceOps cs fout offIn offOut size coff pos s, copyOpOK fout op = true := by
  intro op hop
  simp only [copySliceOps] at hop
  by_cases h : coff + pos < offIn + size ∧ offIn < coff + pos + s.len
  · rw [if_pos h] at hop
    exact emitCopySlice_ok _ _ _ _ _ op hop
  · rw [if_neg h] at hop
    exact absurd hop (List.not_mem_nil op)

theorem copySliceOps_count (cs fout offIn offOut size coff pos : Nat) (s : Slice) :
    List.countP isIncrSlice (copySliceOps cs fout offIn offOut size coff pos s) =
      List.countP isLivePush (copySliceOps cs fout offIn offOut size coff pos s) := by
  simp only [copySliceOps]
  by_cases h : coff + pos < offIn + size ∧ offIn < coff + pos + s.len
  · rw [if_pos h]
    exact emitCopySlice_count _ _ _ _ _
  · rw [if_neg h]
    rfl

theorem copyFold_ok (cs fout offIn offOut size coff : Nat) (l : List Slice) :
    ∀ acc : Nat × List COp, (∀ op ∈ acc.2, copyOpOK fout op = true) →
      ∀ op ∈ (List.foldl (copyStep cs fout offIn offOut size coff) acc l).2,
        copyOpOK fout op = true := by
  induction l with
  | nil => intro acc hacc op hop; exact hacc op hop
  | cons s rest ih =>
    intro acc hacc op hop
    simp only [List.foldl_cons] at hop
    refine ih (copyStep cs fout offIn offOut size coff acc s) ?_ op hop
    intro op2 hop2
    simp only [copyStep] at hop2
    rcases List.mem_append.mp hop2 with hm | hm
    · exact hacc op2 hm
    · exact copySliceOps_ok cs fout offIn offOut size coff acc.1 s op2 hm

theorem copyFold_count (cs fout offIn offOut size coff : Nat) (l : List Slice) :
    ∀ acc : Nat × List COp,
      List.countP isIncrSlice acc.2 = List.countP isLivePush acc.2 →
      List.countP isIncrSlice (List.foldl (copyStep cs fout offIn offOut size coff) acc l).2 =
        List.countP isLivePush (List.foldl (copyStep cs fout offIn offOut size coff) acc l).2 := by
  induction l with
  | nil => intro acc h; exact h
  | cons s rest ih =>
    intro acc h
    simp only [List.foldl_cons]
    refine ih (copyStep cs fout offIn offOut size coff acc s) ?_
    simp only [copyStep, List.countP_append]
    rw [h, copySliceOps_count cs fout offIn offOut size coff acc.1 s]

theorem copyChunkOps_ok (cs fout offIn offOut size coff : Nat) (slices : List MSlice) :
    ∀ op ∈ copyChunkOps cs fout offIn offOut size coff slices,
      copyOpOK fout op = true := by
  intro op hop
  simp only [copyChunkOps] at hop
  exact copyFold_ok cs fout offIn offOut size coff _ (0, [])
    (fun o ho => absurd ho (List.not_mem_nil o)) op hop

theorem copyChunkOps_count (cs fout offIn offOut size coff : Nat) (slices : List MSlice) :
    List.countP isIncrSlice (copyChunkOps cs fout offIn offOut size coff slices) =
      List.countP isLivePush (copyChunkOps cs fout offIn offOut size coff slices) := by
  simp only [copyChunkOps]
  exact copyFold_count cs fout offIn offOut size coff _ (0, []) rfl

theorem copyFlatten_count (L : List (List COp))
    (h : ∀ l ∈ L, List.countP isIncrSlice l = List.countP isLivePush l) :
    List.countP isIncrSlice L.flatten = List.countP isLivePush L.flatten := by
  induction L with
  | nil => rfl
  | cons l rest ih =>
    simp only [List.flatten_cons, List.countP_append]
    rw [h l (List.mem_cons_self l rest), ih (fun t ht => h t (List.mem_cons_of_mem l ht))]

theorem emitCopySlice_split (cs fout indx dpos : Nat) (s : Slice) (h : cs < dpos + s.len) :
    pushRecs (emitCopySlice cs fout indx dpos s) =
      [(indx, ⟨dpos, s.chunkid, s.size, s.off, cs - dpos⟩),
       (indx + 1, ⟨0, s.chunkid, s.size, s.off + (cs - dpos), s.len - (cs - dpos)⟩)] := by
  simp only [emitCopySlice, pushRecs]
  rw [if_pos h]
  by_cases h2 : 0 < s.chunkid <;>
    simp [h2, List.filterMap_cons, List.filterMap_append]

theorem copyOps_shape (cs fout offIn offOut size0 : Nat) (sattr dattr : Attr)
    (getChunk : Nat → List MSlice) (now : Int × Nat) :
    (CopyFileRangeM cs fout offIn offOut size0 sattr dattr getChunk now).2.2 = [] ∨
    ∃ (idxs : List Nat) (size : Nat) (a : Attr) (tl : List COp),
      (tl = [] ∨ ∃ d : Int, tl = [COp.incrUsed d]) ∧
      (CopyFileRangeM cs fout offIn offOut size0 sattr dattr getChunk now).2.2 =
        (idxs.map fun i =>
            copyChunkOps cs fout offIn offOut size (i * cs) (getChunk i)).flatten
          ++ [COp.setInode fout a] ++ tl := by
  simp only [CopyFileRangeM]
  by_cases h1 : sattr.typ ≠ TypeFile
  · rw [if_pos h1]
    exact Or.inl rfl
  rw [if_neg h1]
  by_cases h2 : sattr.length ≤ offIn
  · rw [if_pos h2]
    exact Or.inl rfl
  rw [if_neg h2]
  by_cases h3 : dattr.typ ≠ TypeFile
  · rw [if_pos h3]
    exact Or.inl rfl
  rw [if_neg h3]
  refine Or.inr ⟨_, _, _, _, ?_, rfl⟩
  split_ifs <;> first
    | exact Or.inl rfl
    | exact Or.inr ⟨_, rfl⟩

/-- C6: the transaction of CopyFileRange never writes a key belonging to any
inode other than the destination fout, and in particular never modifies the
source file's chunk logs, attribute record, or length: every committed
operation is a chunk RPUSH or attribute SET on fout, a slice refcount INCR,
or a usedSpace INCRBY. The refcount INCRs pair up with the stored records:
their number equals the number of stored records whose chunk id is greater
than zero. A reprojected slice whose record would cross the destination
chunk boundary is split into exactly two records, the first filling the
current chunk up to the boundary and the second starting at position zero of
the next chunk with the intra-slice offset advanced by the first part's
length. -/
theorem copy_file_range_source_untouched
    (cs fout offIn offOut size0 : Nat) (sattr dattr : Attr)
    (getChunk : Nat → List MSlice) (now : Int × Nat) (ino : Nat) (hino : ino ≠ fout) :
    (∀ op ∈ (CopyFileRangeM cs fout offIn offOut size0 sattr dattr getChunk now).2.2,
        opTouches op ino = false) ∧
    List.countP isIncrSlice
        (CopyFileRangeM cs fout offIn offOut size0 sattr dattr getChunk now).2.2 =
      List.countP isLivePush
        (CopyFileRangeM cs fout offIn offOut size0 sattr dattr getChunk now).2.2 ∧
    ∀ indx dpos (s : Slice), cs < dpos + s.len →
      pushRecs (emitCopySlice cs fout indx dpos s) =
        [(indx, ⟨dpos, s.chunkid, s.size, s.off, cs - dpos⟩),
         (indx + 1, ⟨0, s.chunkid, s.size, s.off + (cs - dpos), s.len - (cs - dpos)⟩)] := by
  refine ⟨?_, ?_, fun indx dpos s h => emitCopySlice_split cs fout indx dpos s h⟩
  · intro op hop
    rcases copyOps_shape cs fout offIn offOut size0 sattr dattr getChunk now with
      hsh | ⟨idxs, size, a, tl, htl, hsh⟩
    · rw [hsh] at hop
      exact absurd hop (List.not_mem_nil op)
    · rw [hsh] at hop
      refine opOK_not_touches fout ino op ?_ hino
      rcases List.mem_append.mp hop with hm | hm
      · rcases List.mem_append.mp hm with hm2 | hm2
        · rcases List.mem_flatten.mp hm2 with ⟨l, hl, hop2⟩
          rcases List.mem_map.mp hl with ⟨i, _, rfl⟩
          exact copyChunkOps_ok cs fout offIn offOut size (i * cs) (getChunk i) op hop2
        · simp only [List.mem_singleton] at hm2
          subst hm2
          simp [copyOpOK]
      · rcases htl with rfl | ⟨d, rfl⟩
        · exact absurd hm (List.not_mem_nil op)
        · simp only [List.mem_singleton] at hm
          subst hm
          rfl
  · rcases copyOps_shape cs fout offIn offOut size0 sattr dattr getChunk now with
      hsh | ⟨idxs, size, a, tl, htl, hsh⟩
    · rw [hsh]
      rfl
    · rw [hsh]
      simp only [List.countP_append]
      have hchunk := copyFlatten_count
        (idxs.map fun i => copyChunkOps cs fout offIn offOut size (i * cs) (getChunk i))
        (by
          intro l hl
          rcases List.mem_map.mp hl with ⟨i, _, rfl⟩
          exact copyChunkOps_count cs fout offIn offOut size (i * cs) (getChunk i))
      rw [hchunk]
      rcases htl with rfl | ⟨d, rfl⟩ <;> rfl

theorem copy_file_range_source_untouched_witness :
    List.countP isIncrSlice
        (CopyFileRangeM 4 2 0 0 3 { attr0 with typ := TypeFile, length := 8 }
          { attr0 with typ := TypeFile } (fun _ => []) (0, 0)).2.2 =
      List.countP isLivePush
        (CopyFileRangeM 4 2 0 0 3 { attr0 with typ := TypeFile, length := 8 }
          { attr0 with typ := TypeFile } (fun _ => []) (0, 0)).2.2 :=
  (copy_file_range_source_untouched 4 2 0 0 3 { attr0 with typ := TypeFile, length := 8 }
    { attr0 with typ := TypeFile } (fun _ => []) (0, 0) 1 (by decide)).2.1

end JuiceFS
